import Mathlib

/-! httpy: request builder and URL resolver

A shallow embedding of the Go package `httpy` (`client.go`, `request.go`,
`methods.go`) together with the properties its specification states about it.

Go strings are immutable byte sequences, so a string is a list of bytes; indexing
`s[i]` and slicing `s[i:j]` act on bytes, exactly as in Go. An index that is out of
range makes the Go runtime panic: such functions return `Option`, `none` standing
for the panic.
-/

namespace Httpy

/-! ## Strings -/

/-- A Go `string`: a finite sequence of bytes. -/
abbrev GoString := List UInt8

/-- The bytes of a string literal (Go source files are UTF-8). -/
def str (s : String) : GoString := s.toUTF8.data.toList

/-- Go `strings.HasPrefix`: `len(s) >= len(prefix) && s[:len(prefix)] == prefix`. -/
def HasPrefix (s pre : GoString) : Bool :=
  decide (pre.length ≤ s.length) && (s.take pre.length == pre)

/-- Go `strings.HasSuffix`:
`len(s) >= len(suffix) && s[len(s)-len(suffix):] == suffix`. -/
def HasSuffix (s suf : GoString) : Bool :=
  decide (suf.length ≤ s.length) && (s.drop (s.length - suf.length) == suf)

/-- The slice expression `s[i:]`, which panics (`none`) when `i > len(s)`. -/
def sliceFrom (s : GoString) (i : Nat) : Option GoString :=
  if i ≤ s.length then some (s.drop i) else none

/-! ## Library functions the builder calls

`strings.ToLower`, `fmt.Sprintf` and `base64.StdEncoding.EncodeToString` belong to the
Go standard library. They are embedded from their documented behaviour; runes are
natural numbers (a rune the library handles is never negative here). -/

/-- The constant `utf8.RuneError`, U+FFFD. -/
def RuneError : Nat := 0xFFFD

/-- The constant `utf8.MaxRune`, U+10FFFF. -/
def MaxRune : Nat := 0x10FFFF

/-- The table `first` of package `utf8`: information about the first byte of a UTF-8
sequence. `0xF0` marks an ASCII byte, `0xF1` an invalid first byte; otherwise the low
three bits are the length of the sequence and the high four bits index
`acceptRanges`. -/
def first (b : UInt8) : UInt8 :=
  if b < 0x80 then 0xF0
  else if b < 0xC2 then 0xF1
  else if b < 0xE0 then 0x02
  else if b = 0xE0 then 0x13
  else if b < 0xED then 0x03
  else if b = 0xED then 0x23
  else if b < 0xF0 then 0x03
  else if b = 0xF0 then 0x34
  else if b < 0xF4 then 0x04
  else if b = 0xF4 then 0x44
  else 0xF1

/-- The table `acceptRanges` of package `utf8`: the range the second byte of a
sequence must lie in. -/
def acceptRanges (i : UInt8) : UInt8 × UInt8 :=
  if i = 0 then (0x80, 0xBF)
  else if i = 1 then (0xA0, 0xBF)
  else if i = 2 then (0x80, 0x9F)
  else if i = 3 then (0x90, 0xBF)
  else if i = 4 then (0x80, 0x8F)
  else (0, 0)

/-- Go `utf8.DecodeRuneInString`: the first rune of `s` and its width in bytes; an
invalid or truncated sequence gives `(RuneError, 1)`, the empty string
`(RuneError, 0)`. -/
def DecodeRuneInString (s : GoString) : Nat × Nat :=
  match s with
  | [] => (RuneError, 0)
  | s0 :: t0 =>
    let x := first s0
    if x ≥ 0xF0 then
      (if x &&& 1 = 0 then s0.toNat else RuneError, 1)
    else
      let sz := (x &&& 7).toNat
      let accept := acceptRanges (x >>> 4)
      if s.length < sz then (RuneError, 1)
      else
        match t0 with
        | [] => (RuneError, 1)
        | s1 :: t1 =>
          if s1 < accept.1 ∨ accept.2 < s1 then (RuneError, 1)
          else if sz ≤ 2 then
            ((s0 &&& 0x1F).toNat <<< 6 ||| (s1 &&& 0x3F).toNat, 2)
          else
            match t1 with
            | [] => (RuneError, 1)
            | s2 :: t2 =>
              if s2 < 0x80 ∨ 0xBF < s2 then (RuneError, 1)
              else if sz ≤ 3 then
                ((s0 &&& 0x0F).toNat <<< 12 ||| (s1 &&& 0x3F).toNat <<< 6
                  ||| (s2 &&& 0x3F).toNat, 3)
              else
                match t2 with
                | [] => (RuneError, 1)
                | s3 :: _ =>
                  if s3 < 0x80 ∨ 0xBF < s3 then (RuneError, 1)
                  else
                    ((s0 &&& 0x07).toNat <<< 18 ||| (s1 &&& 0x3F).toNat <<< 12
                      ||| (s2 &&& 0x3F).toNat <<< 6 ||| (s3 &&& 0x3F).toNat, 4)

/-- Go `utf8.AppendRune` on an empty buffer: the UTF-8 encoding of `r`; a surrogate or
a value above `MaxRune` is encoded as `RuneError`. -/
def AppendRune (r : Nat) : GoString :=
  if r ≤ 0x7F then [r.toUInt8]
  else if r ≤ 0x7FF then
    [(0xC0 : UInt8) ||| (r >>> 6).toUInt8, (0x80 : UInt8) ||| (r.toUInt8 &&& 0x3F)]
  else if MaxRune < r ∨ (0xD800 ≤ r ∧ r ≤ 0xDFFF) then [0xEF, 0xBF, 0xBD]
  else if r ≤ 0xFFFF then
    [(0xE0 : UInt8) ||| (r >>> 12).toUInt8, (0x80 : UInt8) ||| ((r >>> 6).toUInt8 &&& 0x3F),
      (0x80 : UInt8) ||| (r.toUInt8 &&& 0x3F)]
  else
    [(0xF0 : UInt8) ||| (r >>> 18).toUInt8, (0x80 : UInt8) ||| ((r >>> 12).toUInt8 &&& 0x3F),
      (0x80 : UInt8) ||| ((r >>> 6).toUInt8 &&& 0x3F), (0x80 : UInt8) ||| (r.toUInt8 &&& 0x3F)]

/-- The loop of Go `strings.Map`: `skip` counts the bytes of the current rune that are
still to be passed over. At the start of a rune it is decoded, mapped and the encoding
of the result is written. -/
def Map.loop (mapping : Nat → Nat) : Nat → GoString → GoString
  | _, [] => []
  | 0, b :: rest =>
    AppendRune (mapping (DecodeRuneInString (b :: rest)).1)
      ++ Map.loop mapping ((DecodeRuneInString (b :: rest)).2 - 1) rest
  | skip + 1, _ :: rest => Map.loop mapping skip rest

/-- Go `strings.Map` for a mapping that never returns a negative rune: every rune of
`s` (an invalid byte counts as `RuneError`) is replaced by its image. -/
def Map (mapping : Nat → Nat) (s : GoString) : GoString :=
  Map.loop mapping 0 s

/-- Go `unicode.ToLower`. ASCII is handled in the function itself; above ASCII the
result `To(LowerCase, r)` is read from the tables `unicode.CaseRanges`, which are the
parameter `lowerCase`. -/
def unicodeToLower (lowerCase : Nat → Nat) (r : Nat) : Nat :=
  if r ≤ 0x7F then
    if 'A'.toNat ≤ r ∧ r ≤ 'Z'.toNat then r + ('a'.toNat - 'A'.toNat) else r
  else lowerCase r

/-- The byte `c` with an ASCII capital letter replaced by its small letter:
`if 'A' <= c && c <= 'Z' { c += 'a' - 'A' }`. -/
def lowerByte (c : UInt8) : UInt8 :=
  if 'A'.toUInt8 ≤ c ∧ c ≤ 'Z'.toUInt8 then c + ('a'.toUInt8 - 'A'.toUInt8) else c

/-- Go `strings.ToLower`: a string of ASCII bytes only is lowered byte by byte,
any other string is `Map(unicode.ToLower, s)`. -/
def ToLower (lowerCase : Nat → Nat) (s : GoString) : GoString :=
  if s.all (fun c => c < 0x80) then s.map lowerByte
  else Map (unicodeToLower lowerCase) s

/-- Go `fmt.Sprintf` for a format whose verbs are all `%s` and operands that are
strings: each `%s` is replaced by the next operand, a `%s` without operand by
`%!s(MISSING)`, every other byte is copied. -/
def Sprintf : GoString → List GoString → GoString
  | [], _ => []
  | [c], _ => [c]
  | c :: d :: rest, args =>
    if c = '%'.toUInt8 ∧ d = 's'.toUInt8 then
      match args with
      | [] => str "%!s(MISSING)" ++ Sprintf rest []
      | a :: more => a ++ Sprintf rest more
    else c :: Sprintf (d :: rest) args

/-- The alphabet `encodeStd` of package `base64` (RFC 4648, section 4). -/
def encodeStd : GoString :=
  str "ABCDEFGHIJKLMNOPQRSTUVWXYZabcdefghijklmnopqrstuvwxyz0123456789+/"

/-- The table lookup `enc.encode[i]`; the index is always below 64. -/
def encodeByte (i : Nat) : UInt8 := encodeStd.getD i 0

/-- The constant `base64.StdPadding`, the character "=". -/
def StdPadding : UInt8 := '='.toUInt8

/-- Go `base64.StdEncoding.EncodeToString`: three bytes at a time are packed into a
24-bit value and written as four characters of the alphabet; a rest of one or two bytes
is written as two or three characters and padded with "=" to four. -/
def EncodeToString : GoString → GoString
  | [] => []
  | [b0] =>
    let val := b0.toNat <<< 16
    [encodeByte (val >>> 18 &&& 0x3F), encodeByte (val >>> 12 &&& 0x3F),
      StdPadding, StdPadding]
  | [b0, b1] =>
    let val := b0.toNat <<< 16 ||| b1.toNat <<< 8
    [encodeByte (val >>> 18 &&& 0x3F), encodeByte (val >>> 12 &&& 0x3F),
      encodeByte (val >>> 6 &&& 0x3F), StdPadding]
  | b0 :: b1 :: b2 :: rest =>
    let val := b0.toNat <<< 16 ||| b1.toNat <<< 8 ||| b2.toNat
    encodeByte (val >>> 18 &&& 0x3F) :: encodeByte (val >>> 12 &&& 0x3F)
      :: encodeByte (val >>> 6 &&& 0x3F) :: encodeByte (val &&& 0x3F)
      :: EncodeToString rest

/-! ### Base64 decoding, as RFC 4648 defines it -/

/-- The value of a character of the standard alphabet, its position in the alphabet;
`none` for every other byte, the padding character included. -/
def decodeByte (c : UInt8) : Option Nat :=
  if encodeStd.indexOf c < 64 then some (encodeStd.indexOf c) else none

/-- Standard base64 decoding with padding: the input is read four characters at a
time, each group giving three bytes; the last group may end in "=" (two bytes) or
"==" (one byte). Anything else is rejected. -/
def base64StdDecode : GoString → Option GoString
  | [] => some []
  | c0 :: c1 :: c2 :: c3 :: rest =>
    if rest = [] ∧ c3 = StdPadding then
      if c2 = StdPadding then
        match decodeByte c0, decodeByte c1 with
        | some v0, some v1 =>
          let val := v0 <<< 18 ||| v1 <<< 12
          some [(val >>> 16).toUInt8]
        | _, _ => none
      else
        match decodeByte c0, decodeByte c1, decodeByte c2 with
        | some v0, some v1, some v2 =>
          let val := v0 <<< 18 ||| v1 <<< 12 ||| v2 <<< 6
          some [(val >>> 16).toUInt8, (val >>> 8).toUInt8]
        | _, _, _ => none
    else
      match decodeByte c0, decodeByte c1, decodeByte c2, decodeByte c3,
        base64StdDecode rest with
      | some v0, some v1, some v2, some v3, some tail =>
        let val := v0 <<< 18 ||| v1 <<< 12 ||| v2 <<< 6 ||| v3
        some ((val >>> 16).toUInt8 :: (val >>> 8).toUInt8 :: val.toUInt8 :: tail)
      | _, _, _, _, _ => none
  | _ => none

/-! ## client.go: the URL resolver -/

/-- The function `getTargetURL` of `client.go`. The two index expressions
`base[len(base)-1]` and `url[0]` panic when out of range (`none`). -/
def getTargetURL (base url : GoString) : Option GoString :=
  if base = str "" ∨ HasPrefix url (str "http") = true then
    some url
  else
    match base[base.length - 1]? with
    | none => none
    | some lc =>
      let base := if lc = '/'.toUInt8 then base.take (base.length - 1) else base
      match url[0]? with
      | none => none
      | some c =>
        let url := if c = '/'.toUInt8 then url.drop 1 else url
        some (base ++ str "/" ++ url)

/-! ### The resolver as the specification words it -/

/-- The string `s` with exactly one trailing "/" removed if it ends in "/",
otherwise `s` itself. -/
def trimOneTrailingSlash (s : GoString) : GoString :=
  if s.getLast? = some '/'.toUInt8 then s.dropLast else s

/-- The string `s` with exactly one leading "/" removed if it starts with "/",
otherwise `s` itself. -/
def trimOneLeadingSlash (s : GoString) : GoString :=
  match s with
  | c :: rest => if c = '/'.toUInt8 then rest else s
  | [] => []

/-! ## request.go: the request builder

A `*Request` is a pointer to a mutable record. Every builder method mutates the
record it is called on and returns the same pointer, so a method is embedded as a
function from the record before the call to the record after it. -/

/-- A Go `[]string`: `none` is the nil slice, `some []` an empty slice that is not
nil, `some [v1, ..., vn]` the slice of these values. -/
abbrev StringSlice := Option (List GoString)

/-- The slice a variadic parameter `values ...string` receives when the call lists
the arguments one by one: nil when no argument is given, otherwise a fresh slice of
the arguments. (A call `f(xs...)` passes the slice `xs` itself.) -/
def variadic (args : List GoString) : StringSlice :=
  if args = [] then none else some args

/-- The entries of a Go `map[string][]string` that is not nil: at most one entry per
key is ever looked up, the one nearest the head. -/
abbrev Entries := List (GoString × StringSlice)

/-- A Go `map[string][]string`: `none` is the nil map. -/
abbrev HeaderMap := Option Entries

/-- The two-valued index expression `v, ok := m[k]`: `none` when `k` is not a key
(in particular on the nil map), otherwise the value stored under `k`. -/
def HeaderMap.entry (m : HeaderMap) (k : GoString) : Option StringSlice :=
  match m with
  | none => none
  | some es => es.lookup k

/-- The index expression `m[k]`: the zero value (the nil slice) when `k` is not a
key. -/
def HeaderMap.index (m : HeaderMap) (k : GoString) : StringSlice :=
  (m.entry k).getD none

/-- The builtin `delete(m, k)` on a map that is not nil. -/
def Entries.delete (es : Entries) (k : GoString) : Entries :=
  es.filter (fun e => e.1 ≠ k)

/-- The assignment `m[k] = v` on a map that is not nil. -/
def Entries.store (es : Entries) (k : GoString) (v : StringSlice) : Entries :=
  (k, v) :: es.delete k

/-- An `io.Reader`, given by the bytes it yields when read to the end. -/
structure Reader where
  unread : GoString
deriving DecidableEq

/-- The constant `ContentTypeHeader`. -/
def ContentTypeHeader : GoString := str "Content-Type"

/-- The constant `AuthorizationHeader`. -/
def AuthorizationHeader : GoString := str "Authorization"

/-- The struct `Request`; `body = none` is the nil reader, `headers = none` the nil
map (as in the zero value `Request{}`). -/
structure Request where
  body : Option Reader
  url : GoString
  method : GoString
  headers : HeaderMap
deriving DecidableEq

/-- The method `Request.Headers`. -/
def Request.Headers (r : Request) : HeaderMap := r.headers

/-- The method `Request.SetHeader`: a nil header map is first replaced by an empty
one; then a nil `values` deletes the entry of `name`, any other `values` is stored
under `name`. -/
def Request.SetHeader (r : Request) (name : GoString) (values : StringSlice) : Request :=
  let headers : Entries :=
    match r.headers with
    | none => []
    | some es => es
  if values = none then
    { r with headers := some (headers.delete name) }
  else
    { r with headers := some (headers.store name values) }

/-- The method `Request.RemoveHeader`: `r.SetHeader(name)`, with no values. -/
def Request.RemoveHeader (r : Request) (name : GoString) : Request :=
  r.SetHeader name (variadic [])

/-- The method `Request.WithBasicAuth`. -/
def Request.WithBasicAuth (r : Request) (username password : GoString) : Request :=
  let auth := Sprintf (str "%s:%s") [username, password]
  let value := EncodeToString auth
  r.SetHeader AuthorizationHeader (variadic [Sprintf (str "Basic %s") [value]])

/-- What the builder relies on in the Unicode tables: the lower case of a rune above
ASCII is above ASCII, except that U+0130 and U+212A have the lower cases "i" and "k". -/
def LowerCaseAboveASCII (lowerCase : Nat → Nat) : Prop :=
  ∀ r, 0x7F < r → 0x7F < lowerCase r ∨ lowerCase r = 'i'.toNat ∨ lowerCase r = 'k'.toNat

/-- The string `s` ASCII-lowercased: the letters "A" to "Z" become "a" to "z", every
other byte is kept. -/
def asciiLower (s : GoString) : GoString := s.map lowerByte

/-- The method `Request.WithBearer`. The slice expression `token[7:]` is evaluated
when the lowered token has the prefix "bearer "; it panics (`none`) if the token has
fewer than seven bytes. -/
def Request.WithBearer (lowerCase : Nat → Nat) (r : Request) (token : GoString) :
    Option Request :=
  let token : Option GoString :=
    if HasPrefix (ToLower lowerCase token) (str "bearer ") = true then sliceFrom token 7
    else some token
  token.map fun token =>
    r.SetHeader AuthorizationHeader (variadic [Sprintf (str "Bearer %s") [token]])

/-- A fragment of the lower-case mapping of the Unicode tables above ASCII: the dotted
capital I (U+0130) goes to "i", the Kelvin sign (U+212A) to "k", the capital letters
of Latin-1 to their small letters; every other rune is left as it is. -/
def lowerCaseFragment (r : Nat) : Nat :=
  if r = 0x130 then 0x69
  else if r = 0x212A then 0x6B
  else if 0xC0 ≤ r ∧ r ≤ 0xDE ∧ r ≠ 0xD7 then r + 0x20
  else r

/-- The zero value `Request{}`, as in `r := &Request{}`: no body, empty url and
method, nil header map. -/
def zeroRequest : Request := ⟨none, [], [], none⟩

/-- A request that already carries headers: `foo: old` and `x: y`. -/
def sampleRequest : Request :=
  ⟨none, str "/api", str "POST", some [(str "foo", some [str "old"]), (str "x", some [str "y"])]⟩

/-! ### The remaining builder methods and the constructors -/

/-- The function `NewRequest`: the given url and method, no body, an empty header map
that is not nil. -/
def NewRequest (url method : GoString) : Request :=
  { body := none, url := url, method := method, headers := some [] }

/-- The method `Request.URL`. -/
def Request.URL (r : Request) : GoString := r.url

/-- The method `Request.Method`. -/
def Request.Method (r : Request) : GoString := r.method

/-- The method `Request.Body`. -/
def Request.Body (r : Request) : Option Reader := r.body

/-- Go `strings.NewReader`: a reader that yields the bytes of `s`. -/
def NewReader (s : GoString) : Reader := ⟨s⟩

/-- The method `Request.SetBody`: `r.body = rdr`. -/
def Request.SetBody (r : Request) (rdr : Option Reader) : Request :=
  { r with body := rdr }

/-- The method `Request.SetContentType`: `r.SetHeader(ContentTypeHeader, value)`. -/
def Request.SetContentType (r : Request) (value : GoString) : Request :=
  r.SetHeader ContentTypeHeader (variadic [value])

/-- The method `Request.WithJSON`. `Encode data` stands for the bytes that
`json.NewEncoder(buf).Encode(data)` leaves in the buffer `buf` (its error is dropped by
the method); the buffer becomes the body. -/
def Request.WithJSON {α : Type} (Encode : α → GoString) (r : Request) (data : α) : Request :=
  (r.SetBody (some ⟨Encode data⟩)).SetContentType (str "application/json")

/-- The method `Request.WithPlainText`. -/
def Request.WithPlainText (r : Request) (txt : GoString) : Request :=
  (r.SetBody (some (NewReader txt))).SetContentType (str "text/plain")

/-- The method `Request.WithForm`. `Encode values` stands for `values.Encode()` of
package `net/url`; `url.Values` is a `map[string][]string`. -/
def Request.WithForm (Encode : HeaderMap → GoString) (r : Request) (values : HeaderMap) :
    Request :=
  (r.SetBody (some (NewReader (Encode values)))).SetContentType
    (str "application/x-www-form-urlencoded")

/-- The method `Read` of a `strings.Reader` or `bytes.Buffer`, called with a buffer of
`n` bytes: the bytes copied into the buffer, whether `io.EOF` is returned, and the
reader afterwards. At the end of the data nothing is copied and `io.EOF` is
returned. -/
def Reader.Read (r : Reader) (n : Nat) : GoString × Bool × Reader :=
  if r.unread = [] then ([], true, r)
  else (r.unread.take n, false, ⟨r.unread.drop n⟩)

/-- The loop of Go `ioutil.ReadAll`: `Read` is called with the free part of the buffer
(`chunk` bytes, never zero) until it returns `io.EOF`; `b` is what has been read so
far. `none` when the fuel runs out first. -/
def ReadAll.loop (chunk : Nat) : Nat → Reader → GoString → Option GoString
  | 0, _, _ => none
  | fuel + 1, r, b =>
    match r.Read chunk with
    | (_, true, _) => some b
    | (p, false, r1) => ReadAll.loop chunk fuel r1 (b ++ p)

/-- Go `ioutil.ReadAll`, reading 512 bytes at a time. One call of `Read` per unread
byte and one more for `io.EOF` always suffice. -/
def ReadAll (r : Reader) : Option GoString :=
  ReadAll.loop 512 (r.unread.length + 1) r []

/-! ## methods.go -/

/-- The constants `http.MethodGet`, `http.MethodPost`, `http.MethodPut`,
`http.MethodPatch` and `http.MethodDelete`. -/
def MethodGet : GoString := str "GET"

def MethodPost : GoString := str "POST"

def MethodPut : GoString := str "PUT"

def MethodPatch : GoString := str "PATCH"

def MethodDelete : GoString := str "DELETE"

/-- The function `Get`. -/
def Get (url : GoString) : Request := NewRequest url MethodGet

/-- The function `Post`. -/
def Post (url : GoString) : Request := NewRequest url MethodPost

/-- The function `Put`. -/
def Put (url : GoString) : Request := NewRequest url MethodPut

/-- The function `Patch`. -/
def Patch (url : GoString) : Request := NewRequest url MethodPatch

/-- The function `Delete`. -/
def Delete (url : GoString) : Request := NewRequest url MethodDelete

/-! ### The builder methods on a pointer

The methods have the receiver `r *Request`. Here the receiver is a pointer that is not
nil, given by its address and the record stored at that address; `return r` returns the
address the method was called on, and a chain `r.A(...).B(...)` calls `B` on the
pointer that `A` returns. -/

/-- A `*Request` that is not nil: an address and the record stored there. -/
structure RequestPtr where
  addr : Nat
  val : Request
deriving DecidableEq

/-- `SetBody` on a pointer: `r.body = rdr; return r`. -/
def RequestPtr.SetBody (r : RequestPtr) (rdr : Option Reader) : RequestPtr :=
  { r with val := r.val.SetBody rdr }

/-- `SetHeader` on a pointer: the header map of the record is updated; `return r`. -/
def RequestPtr.SetHeader (r : RequestPtr) (name : GoString) (values : StringSlice) :
    RequestPtr :=
  { r with val := r.val.SetHeader name values }

/-- `RemoveHeader` on a pointer: `return r.SetHeader(name)`. -/
def RequestPtr.RemoveHeader (r : RequestPtr) (name : GoString) : RequestPtr :=
  r.SetHeader name (variadic [])

/-- `SetContentType` on a pointer: `return r.SetHeader(ContentTypeHeader, value)`. -/
def RequestPtr.SetContentType (r : RequestPtr) (value : GoString) : RequestPtr :=
  r.SetHeader ContentTypeHeader (variadic [value])

/-- `WithJSON` on a pointer: `return r.SetBody(buf).SetContentType("application/json")`. -/
def RequestPtr.WithJSON {α : Type} (Encode : α → GoString) (r : RequestPtr) (data : α) :
    RequestPtr :=
  (r.SetBody (some ⟨Encode data⟩)).SetContentType (str "application/json")

/-- `WithPlainText` on a pointer. -/
def RequestPtr.WithPlainText (r : RequestPtr) (txt : GoString) : RequestPtr :=
  (r.SetBody (some (NewReader txt))).SetContentType (str "text/plain")

/-- `WithForm` on a pointer. -/
def RequestPtr.WithForm (Encode : HeaderMap → GoString) (r : RequestPtr)
    (values : HeaderMap) : RequestPtr :=
  (r.SetBody (some (NewReader (Encode values)))).SetContentType
    (str "application/x-www-form-urlencoded")

/-- `WithBearer` on a pointer; `none` if the slice expression `token[7:]` panics. -/
def RequestPtr.WithBearer (lowerCase : Nat → Nat) (r : RequestPtr) (token : GoString) :
    Option RequestPtr :=
  let token : Option GoString :=
    if HasPrefix (ToLower lowerCase token) (str "bearer ") = true then sliceFrom token 7
    else some token
  token.map fun token =>
    r.SetHeader AuthorizationHeader (variadic [Sprintf (str "Bearer %s") [token]])

/-- `WithBasicAuth` on a pointer. -/
def RequestPtr.WithBasicAuth (r : RequestPtr) (username password : GoString) : RequestPtr :=
  let auth := Sprintf (str "%s:%s") [username, password]
  let value := EncodeToString auth
  r.SetHeader AuthorizationHeader (variadic [Sprintf (str "Basic %s") [value]])

/-- One call of a builder method, with its arguments. The argument of `WithJSON` is a
value of any type together with its JSON encoder, the argument of `WithForm` the
values together with their URL encoder. -/
inductive BuilderCall : Type 1 where
  | SetBody (rdr : Option Reader)
  | SetContentType (value : GoString)
  | WithJSON (α : Type) (Encode : α → GoString) (data : α)
  | WithPlainText (txt : GoString)
  | WithForm (Encode : HeaderMap → GoString) (values : HeaderMap)
  | WithBearer (token : GoString)
  | WithBasicAuth (username password : GoString)
  | SetHeader (name : GoString) (values : StringSlice)
  | RemoveHeader (name : GoString)

/-- The pointer a builder call returns when made on `r`; `none` if the call panics. -/
def BuilderCall.call (lowerCase : Nat → Nat) (c : BuilderCall) (r : RequestPtr) :
    Option RequestPtr :=
  match c with
  | .SetBody rdr => some (r.SetBody rdr)
  | .SetContentType value => some (r.SetContentType value)
  | .WithJSON _ Encode data => some (r.WithJSON Encode data)
  | .WithPlainText txt => some (r.WithPlainText txt)
  | .WithForm Encode values => some (r.WithForm Encode values)
  | .WithBearer token => r.WithBearer lowerCase token
  | .WithBasicAuth username password => some (r.WithBasicAuth username password)
  | .SetHeader name values => some (r.SetHeader name values)
  | .RemoveHeader name => some (r.RemoveHeader name)

/-- A finite sequence of builder calls, each made on the pointer the previous one
returned. -/
def BuilderCall.chain (lowerCase : Nat → Nat) : List BuilderCall → RequestPtr →
    Option RequestPtr
  | [], r => some r
  | c :: cs, r =>
    match c.call lowerCase r with
    | none => none
    | some r1 => BuilderCall.chain lowerCase cs r1

/-! ## client.go: the client

The transport is package `net/http`. Its request construction
`http.NewRequestWithContext` and the method `Do` of its client are parameters: functions
that return either a value or an error. Its header type and `Header.Add` are embedded
from their documented behaviour. -/

/-- A Go `error` that is not nil, given by its message. -/
abbrev Error := GoString

/-- The values of a slice in order; none for the nil slice. -/
def StringSlice.toList (s : StringSlice) : List GoString := s.getD []

/-- Go `textproto.validHeaderFieldByte`: the bytes allowed in a header field name,
the "token" characters of RFC 7230. -/
def validHeaderFieldByte (c : UInt8) : Bool :=
  ('0'.toUInt8 ≤ c ∧ c ≤ '9'.toUInt8) ∨ ('a'.toUInt8 ≤ c ∧ c ≤ 'z'.toUInt8)
    ∨ ('A'.toUInt8 ≤ c ∧ c ≤ 'Z'.toUInt8) ∨ c ∈ str "!#$%&'*+-.^_`|~"

/-- The loop of Go `textproto.canonicalMIMEHeaderKey`: the first letter and every
letter after "-" is made a capital letter, every other letter a small one. `upper`
tells whether the next byte follows the start or a "-". -/
def canonicalMIMEHeaderKey : Bool → GoString → GoString
  | _, [] => []
  | upper, c :: rest =>
    let c : UInt8 :=
      if upper = true ∧ 'a'.toUInt8 ≤ c ∧ c ≤ 'z'.toUInt8 then c - ('a'.toUInt8 - 'A'.toUInt8)
      else if upper = false ∧ 'A'.toUInt8 ≤ c ∧ c ≤ 'Z'.toUInt8 then
        c + ('a'.toUInt8 - 'A'.toUInt8)
      else c
    c :: canonicalMIMEHeaderKey (c == '-'.toUInt8) rest

/-- Go `textproto.CanonicalMIMEHeaderKey`: a key with a byte that is not allowed in a
field name (a space, say) is returned unchanged, any other key in canonical form. -/
def CanonicalMIMEHeaderKey (s : GoString) : GoString :=
  if s.all validHeaderFieldByte then canonicalMIMEHeaderKey true s else s

/-- Go `http.Header.Add`: the value is appended to the values stored under the
canonical form of the key. -/
def HeaderAdd (h : Entries) (key value : GoString) : Entries :=
  h.store (CanonicalMIMEHeaderKey key)
    (some ((HeaderMap.index (some h) (CanonicalMIMEHeaderKey key)).toList ++ [value]))

/-- Go `http.Header.Values`: the values stored under the canonical form of the key. -/
def HeaderValues (h : Entries) (key : GoString) : StringSlice :=
  HeaderMap.index (some h) (CanonicalMIMEHeaderKey key)

/-- The `*http.Request` of the transport: the fields the client sets. -/
structure HTTPRequest where
  Method : GoString
  URL : GoString
  Body : Option Reader
  Header : Entries
deriving DecidableEq

/-- The `http.Response` of the transport. -/
structure HTTPResponse where
  StatusCode : Int
  Header : Entries
  Body : Option Reader
deriving DecidableEq

/-- The type `Response` of `response.go`, declared as `type Response http.Response`:
the same fields under another name. -/
structure Response where
  StatusCode : Int
  Header : Entries
  Body : Option Reader
deriving DecidableEq

/-- The conversion `Response(*resp)`. -/
def Response.ofHTTP (resp : HTTPResponse) : Response :=
  { StatusCode := resp.StatusCode, Header := resp.Header, Body := resp.Body }

/-- The statement `for name, values := range headers` visits every key of the map once,
in an order the runtime chooses; `order` is such an order for the map `m`: the entries
of `m`, each key once. The nil map has no entries. -/
def IsRangeOrder (order : Entries) (m : HeaderMap) : Prop :=
  (order.map Prod.fst).Nodup ∧ ∀ k, order.lookup k = m.entry k

/-- The function `addRequestHeaders`, on the entries of `headers` in the order the
`range` statement visits them: every value of every entry is added with
`r.Header.Add(name, value)`. -/
def addRequestHeaders (r : HTTPRequest) (order : Entries) : HTTPRequest :=
  order.foldl
    (fun r entry =>
      entry.2.toList.foldl (fun r value => { r with Header := HeaderAdd r.Header entry.1 value })
        r)
    r

/-- The struct `standardClient`: the base url and, of its `*http.Client`, the
timeout. -/
structure standardClient where
  baseURL : GoString
  timeout : Int
deriving DecidableEq

/-- The method `standardClient.SetBaseURL`. -/
def standardClient.SetBaseURL (c : standardClient) (url : GoString) : standardClient :=
  { c with baseURL := url }

/-- The method `standardClient.SetTimeout`. -/
def standardClient.SetTimeout (c : standardClient) (d : Int) : standardClient :=
  { c with timeout := d }

/-- The method `standardClient.Do`. What it returns is the pair `(*Response, error)`,
each component `none` for nil; the result is `none` altogether if the call panics,
which it does when `getTargetURL` does. `range` gives the order in which the header
map is visited. -/
def standardClient.Do {Ctx : Type}
    (NewRequestWithContext : Ctx → GoString → GoString → Option Reader → Except Error HTTPRequest)
    (httpClientDo : Int → HTTPRequest → Except Error HTTPResponse)
    (range : HeaderMap → Entries)
    (c : standardClient) (ctx : Ctx) (req : Request) :
    Option (Option Response × Option Error) :=
  match getTargetURL c.baseURL req.url with
  | none => none
  | some target =>
    match NewRequestWithContext ctx req.method target req.body with
    | .error err => some (none, some err)
    | .ok r =>
      match httpClientDo c.timeout (addRequestHeaders r (range req.headers)) with
      | .error err => some (none, some err)
      | .ok resp => some (some (Response.ofHTTP resp), none)

/-- The interface `Client`, as far as a request uses it: a value that is not nil, given
by its method `Do`. `β` is the outcome of a call: what it returns and whatever else it
does. -/
structure Client (Ctx β : Type) where
  Do : Ctx → RequestPtr → β

/-- The method `Request.Do`: the first of the clients given, the package variable
`DefaultClient` if none is given, is called with the context and the receiver. -/
def RequestPtr.Do {Ctx β : Type} (DefaultClient : Client Ctx β) (r : RequestPtr) (ctx : Ctx)
    (client : List (Client Ctx β)) : β :=
  let c : Client Ctx β := if h : 0 < client.length then client[0] else DefaultClient
  c.Do ctx r

/-! ## Facts about string literals and slicing -/

theorem str_empty : str "" = [] := by decide

theorem str_slash : str "/" = [47] := by decide

theorem str_http : str "http" = [104, 116, 116, 112] := by decide

theorem slash_byte : '/'.toUInt8 = 47 := by decide

/-- The index expression `s[len(s)-1]` reads the last byte. -/
theorem index_last (s : GoString) : s[s.length - 1]? = s.getLast? := by
  rw [List.getLast?_eq_getElem?]

/-- The slice expression `s[:len(s)-1]` drops the last byte. -/
theorem slice_last (s : GoString) : s.take (s.length - 1) = s.dropLast := by
  rw [List.dropLast_eq_take]

theorem getLast?_of_ne_nil (s : GoString) (h : s ≠ []) : ∃ lc, s.getLast? = some lc := by
  cases hl : s.getLast? with
  | none => exact absurd (List.getLast?_eq_none_iff.mp hl) h
  | some lc => exact ⟨lc, rfl⟩

/-- A string has the suffix "/" exactly when its last byte is the slash. -/
theorem hasSuffix_slash (s : GoString) :
    HasSuffix s (str "/") = true ↔ s.getLast? = some '/'.toUInt8 := by
  rcases List.eq_nil_or_concat s with h | ⟨init, x, h⟩
  · subst h; simp [HasSuffix, str_slash]
  · subst h; simp [HasSuffix, str_slash, slash_byte]

/-- A string has the prefix "/" exactly when its first byte is the slash. -/
theorem hasPrefix_slash (s : GoString) :
    HasPrefix s (str "/") = true ↔ s.head? = some '/'.toUInt8 := by
  cases s with
  | nil => simp [HasPrefix, str_slash]
  | cons c rest => simp [HasPrefix, str_slash, slash_byte]

/-- A string that starts with "/" does not start with "http". -/
theorem hasPrefix_http_slash_cons (s : GoString) :
    HasPrefix (str "/" ++ s) (str "http") = false := by
  simp [HasPrefix, str_slash, str_http]

/-! ## The URL resolver: joining -/

/-- On a non-empty base and a non-empty target without the "http" prefix the
resolver trims one slash on each side and joins with "/". -/
theorem getTargetURL_join (base url : GoString) (hb : base ≠ []) (hu : url ≠ [])
    (hp : HasPrefix url (str "http") = false) :
    getTargetURL base url
      = some (trimOneTrailingSlash base ++ str "/" ++ trimOneLeadingSlash url) := by
  obtain ⟨lc, hlc⟩ := getLast?_of_ne_nil base hb
  obtain ⟨c, rest, rfl⟩ := List.exists_cons_of_ne_nil hu
  unfold getTargetURL
  rw [if_neg (by simp [str_empty, hb, hp]), index_last, hlc]
  simp only [List.getElem?_cons_zero, slice_last, List.drop_one, List.tail_cons,
    trimOneTrailingSlash, trimOneLeadingSlash, hlc, Option.some.injEq]

theorem trimOneTrailingSlash_unchanged (s : GoString)
    (h : HasSuffix s (str "/") = false) : trimOneTrailingSlash s = s := by
  have : ¬ s.getLast? = some '/'.toUInt8 := fun hl => by
    rw [(hasSuffix_slash s).mpr hl] at h; exact Bool.noConfusion h
  simp [trimOneTrailingSlash, this]

theorem trimOneTrailingSlash_append_slash (s : GoString) :
    trimOneTrailingSlash (s ++ str "/") = s := by
  simp [trimOneTrailingSlash, str_slash, slash_byte]

theorem trimOneLeadingSlash_unchanged (s : GoString)
    (h : HasPrefix s (str "/") = false) : trimOneLeadingSlash s = s := by
  cases s with
  | nil => rfl
  | cons c rest =>
    have : ¬ c = '/'.toUInt8 := fun hc => by
      rw [(hasPrefix_slash (c :: rest)).mpr (by simp [hc])] at h; exact Bool.noConfusion h
    simp [trimOneLeadingSlash, this]

theorem trimOneLeadingSlash_slash_append (s : GoString) :
    trimOneLeadingSlash (str "/" ++ s) = s := by
  simp [trimOneLeadingSlash, str_slash, slash_byte]

/-- C1: for every non-empty base and every non-empty target that does not begin with
"http", `getTargetURL base target` is the base less one trailing "/" (if it has one),
then "/", then the target less one leading "/" (if it has one); only one slash is
stripped per side, so the target "//values" contributes "/values" after the joining
slash. -/
theorem getTargetURL_trims_one_slash_per_side (base target : GoString)
    (hb : base ≠ str "") (ht : target ≠ str "")
    (hp : HasPrefix target (str "http") = false) :
    getTargetURL base target
        = some (trimOneTrailingSlash base ++ str "/" ++ trimOneLeadingSlash target)
      ∧ getTargetURL base (str "//values")
        = some (trimOneTrailingSlash base ++ str "/" ++ str "/values") := by
  rw [str_empty] at hb ht
  refine ⟨getTargetURL_join base target hb ht hp, ?_⟩
  rw [getTargetURL_join base (str "//values") hb (by decide) (by decide)]
  rfl

theorem getTargetURL_trims_one_slash_per_side_witness :
    getTargetURL (str "http://localhost/api/") (str "/values")
        = some (trimOneTrailingSlash (str "http://localhost/api/") ++ str "/"
            ++ trimOneLeadingSlash (str "/values"))
      ∧ getTargetURL (str "http://localhost/api/") (str "//values")
        = some (trimOneTrailingSlash (str "http://localhost/api/") ++ str "/"
            ++ str "/values") :=
  getTargetURL_trims_one_slash_per_side (str "http://localhost/api/") (str "/values")
    (by decide) (by decide) (by decide)

/-- C2: for every non-empty base `B` that does not end in "/" and every non-empty
target `T` that starts neither with "/" nor with "http", the four calls with the
boundary slash on neither side, on the base, on the target and on both sides all
return `B + "/" + T`. -/
theorem getTargetURL_single_separator (B T : GoString)
    (hB : B ≠ str "") (hBs : HasSuffix B (str "/") = false)
    (hT : T ≠ str "") (hTs : HasPrefix T (str "/") = false)
    (hTh : HasPrefix T (str "http") = false) :
    getTargetURL B T = some (B ++ str "/" ++ T)
      ∧ getTargetURL (B ++ str "/") T = some (B ++ str "/" ++ T)
      ∧ getTargetURL B (str "/" ++ T) = some (B ++ str "/" ++ T)
      ∧ getTargetURL (B ++ str "/") (str "/" ++ T) = some (B ++ str "/" ++ T) := by
  rw [str_empty] at hB hT
  have hB1 : B ++ str "/" ≠ [] := by simp [str_slash]
  have hT1 : str "/" ++ T ≠ [] := by simp [str_slash]
  have hTh1 := hasPrefix_http_slash_cons T
  refine ⟨?_, ?_, ?_, ?_⟩
  · rw [getTargetURL_join B T hB hT hTh, trimOneTrailingSlash_unchanged B hBs,
      trimOneLeadingSlash_unchanged T hTs]
  · rw [getTargetURL_join _ T hB1 hT hTh, trimOneTrailingSlash_append_slash,
      trimOneLeadingSlash_unchanged T hTs]
  · rw [getTargetURL_join B _ hB hT1 hTh1, trimOneTrailingSlash_unchanged B hBs,
      trimOneLeadingSlash_slash_append]
  · rw [getTargetURL_join _ _ hB1 hT1 hTh1, trimOneTrailingSlash_append_slash,
      trimOneLeadingSlash_slash_append]

theorem getTargetURL_single_separator_witness :
    getTargetURL (str "http://localhost/api") (str "values")
        = some (str "http://localhost/api" ++ str "/" ++ str "values")
      ∧ getTargetURL (str "http://localhost/api" ++ str "/") (str "values")
        = some (str "http://localhost/api" ++ str "/" ++ str "values")
      ∧ getTargetURL (str "http://localhost/api") (str "/" ++ str "values")
        = some (str "http://localhost/api" ++ str "/" ++ str "values")
      ∧ getTargetURL (str "http://localhost/api" ++ str "/") (str "/" ++ str "values")
        = some (str "http://localhost/api" ++ str "/" ++ str "values") :=
  getTargetURL_single_separator (str "http://localhost/api") (str "values")
    (by decide) (by decide) (by decide) (by decide) (by decide)

/-- C3: for every base, empty or not, and every target that begins with "http",
`getTargetURL base target` returns the target unchanged. -/
theorem getTargetURL_absolute_target (base target : GoString)
    (hp : HasPrefix target (str "http") = true) :
    getTargetURL base target = some target := by
  unfold getTargetURL
  rw [if_pos (Or.inr hp)]

theorem getTargetURL_absolute_target_witness :
    getTargetURL (str "http://google.com") (str "https://localhost/api")
      = some (str "https://localhost/api") :=
  getTargetURL_absolute_target (str "http://google.com") (str "https://localhost/api")
    (by decide)

/-- C4: for every target, the empty string and targets with leading slashes included,
`getTargetURL "" target` returns the target verbatim. -/
theorem getTargetURL_empty_base (target : GoString) :
    getTargetURL (str "") target = some target := by
  unfold getTargetURL
  rw [if_pos (Or.inl rfl)]

/-- C5: the relative url "httpbin/get" begins with neither "http://" nor "https://",
yet with the base "http://server" the resolver returns it unchanged: the base is not
prepended, because the test for a fully-qualified url is the prefix "http" alone. -/
theorem getTargetURL_relative_http_path_ignores_base :
    str "http://server" ≠ str "" ∧ str "httpbin/get" ≠ str ""
      ∧ HasPrefix (str "httpbin/get") (str "http://") = false
      ∧ HasPrefix (str "httpbin/get") (str "https://") = false
      ∧ getTargetURL (str "http://server") (str "httpbin/get") = some (str "httpbin/get")
      ∧ HasPrefix (str "httpbin/get")
          (trimOneTrailingSlash (str "http://server") ++ str "/") = false := by
  decide

/-! ## The header map -/

theorem Entries.lookup_delete_self (es : Entries) (k : GoString) :
    (es.delete k).lookup k = none := by
  induction es with
  | nil => rfl
  | cons e es ih =>
    obtain ⟨k1, v1⟩ := e
    by_cases h : k1 = k
    · have hd : Entries.delete ((k1, v1) :: es) k = Entries.delete es k := by
        simp [Entries.delete, List.filter_cons, h]
      rw [hd]; exact ih
    · have hd : Entries.delete ((k1, v1) :: es) k = (k1, v1) :: Entries.delete es k := by
        simp [Entries.delete, List.filter_cons, h]
      have hk : (k == k1) = false := beq_false_of_ne (fun h2 => h h2.symm)
      rw [hd, List.lookup_cons, hk]; exact ih

theorem Entries.lookup_delete_other (es : Entries) (k other : GoString) (h : other ≠ k) :
    (es.delete k).lookup other = es.lookup other := by
  induction es with
  | nil => rfl
  | cons e es ih =>
    obtain ⟨k1, v1⟩ := e
    by_cases h1 : k1 = k
    · have hd : Entries.delete ((k1, v1) :: es) k = Entries.delete es k := by
        simp [Entries.delete, List.filter_cons, h1]
      have hk : (other == k1) = false := beq_false_of_ne (h1 ▸ h)
      rw [hd, List.lookup_cons, hk]; exact ih
    · have hd : Entries.delete ((k1, v1) :: es) k = (k1, v1) :: Entries.delete es k := by
        simp [Entries.delete, List.filter_cons, h1]
      rw [hd, List.lookup_cons, List.lookup_cons, ih]

theorem Entries.lookup_store_self (es : Entries) (k : GoString) (v : StringSlice) :
    (es.store k v).lookup k = some v := by
  simp [Entries.store, List.lookup_cons]

theorem Entries.lookup_store_other (es : Entries) (k other : GoString) (v : StringSlice)
    (h : other ≠ k) : (es.store k v).lookup other = es.lookup other := by
  have hk : (other == k) = false := by simpa using h
  simp only [Entries.store, List.lookup_cons, hk]
  exact Entries.lookup_delete_other es k other h

/-- The entries a request's header map holds once `SetHeader` has replaced a nil map
by an empty one. -/
theorem entry_of_headers (m : HeaderMap) (k : GoString) :
    (match m with | none => ([] : Entries) | some es => es).lookup k = m.entry k := by
  cases m <;> rfl

theorem SetHeader_nil_entry_self (r : Request) (name : GoString) :
    (r.SetHeader name none).Headers.entry name = none := by
  simp [Request.SetHeader, Request.Headers, HeaderMap.entry, Entries.lookup_delete_self]

theorem SetHeader_some_entry_self (r : Request) (name : GoString) (vs : List GoString) :
    (r.SetHeader name (some vs)).Headers.entry name = some (some vs) := by
  simp [Request.SetHeader, Request.Headers, HeaderMap.entry, Entries.lookup_store_self]

theorem SetHeader_entry_other (r : Request) (name other : GoString) (values : StringSlice)
    (h : other ≠ name) :
    (r.SetHeader name values).Headers.entry other = r.Headers.entry other := by
  unfold Request.SetHeader Request.Headers
  by_cases hv : values = none
  · simp only [hv, if_true, HeaderMap.entry]
    rw [Entries.lookup_delete_other _ _ _ h]
    exact entry_of_headers r.headers other
  · simp only [hv, if_false, HeaderMap.entry]
    rw [Entries.lookup_store_other _ _ _ _ h]
    exact entry_of_headers r.headers other

/-- C6: for every request, every name and every non-empty sequence of values
`v1, ..., vn`, after `r.SetHeader(name, v1, ..., vn)` the entry `Headers()[name]` is
exactly `[v1, ..., vn]` in that order, whatever was stored under `name` before, and
the entry of every other header name is unchanged. -/
theorem SetHeader_replaces_values (r : Request) (name : GoString) (vs : List GoString)
    (hvs : vs ≠ []) :
    (r.SetHeader name (variadic vs)).Headers.index name = some vs
      ∧ (r.SetHeader name (variadic vs)).Headers.entry name = some (some vs)
      ∧ ∀ other, other ≠ name →
          (r.SetHeader name (variadic vs)).Headers.entry other = r.Headers.entry other := by
  have hv : variadic vs = some vs := by simp [variadic, hvs]
  rw [hv]
  refine ⟨?_, SetHeader_some_entry_self r name vs, ?_⟩
  · simp [HeaderMap.index, SetHeader_some_entry_self]
  · intro other h
    exact SetHeader_entry_other r name other (some vs) h

theorem SetHeader_replaces_values_witness :
    (sampleRequest.SetHeader (str "foo") (variadic [str "bar", str "foobar"])).Headers.index
        (str "foo") = some [str "bar", str "foobar"]
      ∧ (sampleRequest.SetHeader (str "foo")
          (variadic [str "bar", str "foobar"])).Headers.entry (str "x")
        = sampleRequest.Headers.entry (str "x") :=
  ⟨(SetHeader_replaces_values sampleRequest (str "foo") [str "bar", str "foobar"]
      (by decide)).1,
    (SetHeader_replaces_values sampleRequest (str "foo") [str "bar", str "foobar"]
      (by decide)).2.2 (str "x") (by decide)⟩

/-- C7: for every request (the zero-value request with a nil header map included),
every name and every values slice, `SetHeader(name, values...)` followed by
`RemoveHeader(name)` leaves no entry for `name` and leaves every other header entry
as it was before the two calls; and `RemoveHeader(name)` is `SetHeader(name)` with no
values. -/
theorem RemoveHeader_after_SetHeader (r : Request) (name : GoString) (values : StringSlice) :
    ((r.SetHeader name values).RemoveHeader name).Headers.entry name = none
      ∧ ((r.SetHeader name values).RemoveHeader name).Headers.index name = none
      ∧ (∀ other, other ≠ name →
          ((r.SetHeader name values).RemoveHeader name).Headers.entry other
            = r.Headers.entry other)
      ∧ r.RemoveHeader name = r.SetHeader name (variadic []) := by
  have hv : variadic [] = none := rfl
  refine ⟨?_, ?_, ?_, rfl⟩
  · simp only [Request.RemoveHeader, hv]
    exact SetHeader_nil_entry_self _ name
  · simp only [Request.RemoveHeader, hv, HeaderMap.index, SetHeader_nil_entry_self]
    rfl
  · intro other h
    simp only [Request.RemoveHeader, hv]
    rw [SetHeader_entry_other _ name other none h, SetHeader_entry_other r name other values h]

theorem RemoveHeader_after_SetHeader_witness :
    ((zeroRequest.SetHeader (str "foo") (variadic [str "bar"])).RemoveHeader
        (str "foo")).Headers.index (str "foo") = none :=
  (RemoveHeader_after_SetHeader zeroRequest (str "foo") (variadic [str "bar"])).2.1

/-! ## UTF-8 and lower case -/


theorem forall_byte (P : UInt8 → Prop) (h : ∀ n : Fin 256, P (UInt8.mk (BitVec.ofFin n))) :
    ∀ b, P b :=
  fun b => h b.toBitVec.toFin

theorem le_or_left (a b : Nat) : a ≤ a ||| b :=
  Nat.le_of_testBit (fun i h => by simp [h])

theorem le_or_right (a b : Nat) : b ≤ a ||| b :=
  Nat.le_of_testBit (fun i h => by simp [h])

set_option maxRecDepth 100000 in
theorem first_nonascii : ∀ s0 : UInt8, 0x80 ≤ s0 → first s0 ≥ 0xF0 → first s0 &&& 1 = 0 → False :=
  forall_byte _ (by decide)

set_option maxRecDepth 100000 in
theorem lead2 : ∀ s0 : UInt8, 0x80 ≤ s0 → ¬ first s0 ≥ 0xF0 → (first s0 &&& 7).toNat ≤ 2 →
    2 ≤ (s0 &&& 0x1F).toNat :=
  forall_byte _ (by decide)

set_option maxRecDepth 100000 in
theorem lead3 : ∀ s0 : UInt8, ¬ first s0 ≥ 0xF0 → ¬ (first s0 &&& 7).toNat ≤ 2 →
    (first s0 &&& 7).toNat ≤ 3 →
    1 ≤ (s0 &&& 0x0F).toNat ∨ acceptRanges (first s0 >>> 4) = (0xA0, 0xBF) :=
  forall_byte _ (by decide)

set_option maxRecDepth 100000 in
theorem lead4 : ∀ s0 : UInt8, ¬ first s0 ≥ 0xF0 → ¬ (first s0 &&& 7).toNat ≤ 3 →
    1 ≤ (s0 &&& 0x07).toNat ∨ acceptRanges (first s0 >>> 4) = (0x90, 0xBF) :=
  forall_byte _ (by decide)

set_option maxRecDepth 100000 in
theorem second3 : ∀ s1 : UInt8, ¬ (s1 < 0xA0 ∨ 0xBF < s1) → 2 ≤ (s1 &&& 0x3F).toNat :=
  forall_byte _ (by decide)

set_option maxRecDepth 100000 in
theorem second4 : ∀ s1 : UInt8, ¬ (s1 < 0x90 ∨ 0xBF < s1) → 1 ≤ (s1 &&& 0x3F).toNat :=
  forall_byte _ (by decide)

theorem runeError_above : 0x80 ≤ RuneError := by decide

set_option maxRecDepth 100000 in
theorem first_of_ascii : ∀ b : UInt8, b < 0x80 → first b = 0xF0 :=
  forall_byte _ (by decide)

theorem decode_ascii (s0 : UInt8) (t : GoString) (h : s0 < 0x80) :
    DecodeRuneInString (s0 :: t) = (s0.toNat, 1) := by
  have hf : first s0 = 0xF0 := first_of_ascii s0 h
  simp +decide [DecodeRuneInString, hf]

theorem two_byte_bound (a b : Nat) (h : 2 ≤ a) : 0x80 ≤ a <<< 6 ||| b := by
  have h1 := le_or_left (a <<< 6) b
  rw [Nat.shiftLeft_eq] at h1 ⊢
  omega

theorem three_byte_bound (a b c : Nat) (h : 1 ≤ a ∨ 2 ≤ b) :
    0x80 ≤ a <<< 12 ||| b <<< 6 ||| c := by
  have h1 := le_or_left (a <<< 12 ||| b <<< 6) c
  have h2 := le_or_left (a <<< 12) (b <<< 6)
  have h3 := le_or_right (a <<< 12) (b <<< 6)
  simp only [Nat.shiftLeft_eq] at h1 h2 h3 ⊢
  omega

theorem four_byte_bound (a b c d : Nat) (h : 1 ≤ a ∨ 1 ≤ b) :
    0x80 ≤ a <<< 18 ||| b <<< 12 ||| c <<< 6 ||| d := by
  have h0 := le_or_left (a <<< 18 ||| b <<< 12 ||| c <<< 6) d
  have h1 := le_or_left (a <<< 18 ||| b <<< 12) (c <<< 6)
  have h2 := le_or_left (a <<< 18) (b <<< 12)
  have h3 := le_or_right (a <<< 18) (b <<< 12)
  simp only [Nat.shiftLeft_eq] at h0 h1 h2 h3 ⊢
  omega

theorem second_of_lead3 (s0 s1 : UInt8) (h1 : ¬ first s0 ≥ 0xF0)
    (h2 : ¬ (first s0 &&& 7).toNat ≤ 2) (h3 : (first s0 &&& 7).toNat ≤ 3)
    (hs : ¬ (s1 < (acceptRanges (first s0 >>> 4)).1 ∨ (acceptRanges (first s0 >>> 4)).2 < s1)) :
    1 ≤ (s0 &&& 0x0F).toNat ∨ 2 ≤ (s1 &&& 0x3F).toNat := by
  rcases lead3 s0 h1 h2 h3 with h | h
  · exact Or.inl h
  · rw [h] at hs; exact Or.inr (second3 s1 hs)

theorem second_of_lead4 (s0 s1 : UInt8) (h1 : ¬ first s0 ≥ 0xF0)
    (h3 : ¬ (first s0 &&& 7).toNat ≤ 3)
    (hs : ¬ (s1 < (acceptRanges (first s0 >>> 4)).1 ∨ (acceptRanges (first s0 >>> 4)).2 < s1)) :
    1 ≤ (s0 &&& 0x07).toNat ∨ 1 ≤ (s1 &&& 0x3F).toNat := by
  rcases lead4 s0 h1 h3 with h | h
  · exact Or.inl h
  · rw [h] at hs; exact Or.inr (second4 s1 hs)

/-- A first byte outside ASCII never decodes to an ASCII rune. -/
theorem decode_nonascii (s0 : UInt8) (t : GoString) (h : 0x80 ≤ s0) :
    0x80 ≤ (DecodeRuneInString (s0 :: t)).1 := by
  have hE := runeError_above
  rcases t with _ | ⟨s1, _ | ⟨s2, _ | ⟨s3, t3⟩⟩⟩ <;>
    simp only [DecodeRuneInString] <;> split_ifs <;>
    first
      | exact hE
      | exact absurd ‹first s0 &&& 1 = 0› (fun h0 => first_nonascii s0 h ‹_› h0)
      | exact two_byte_bound _ _ (lead2 s0 h ‹¬ first s0 ≥ 0xF0› ‹(first s0 &&& 7).toNat ≤ 2›)
      | exact three_byte_bound _ _ _ (second_of_lead3 s0 s1 ‹¬ first s0 ≥ 0xF0›
          ‹¬ (first s0 &&& 7).toNat ≤ 2› ‹(first s0 &&& 7).toNat ≤ 3› ‹_›)
      | exact four_byte_bound _ _ _ _ (second_of_lead4 s0 s1 ‹¬ first s0 ≥ 0xF0›
          ‹¬ (first s0 &&& 7).toNat ≤ 3› ‹_›)

set_option maxRecDepth 100000 in
theorem lead_or : ∀ y : UInt8, 0x80 ≤ (0xC0 : UInt8) ||| y ∧ 0x80 ≤ (0xE0 : UInt8) ||| y
    ∧ 0x80 ≤ (0xF0 : UInt8) ||| y :=
  forall_byte _ (by decide)

/-- The encoding of a rune above ASCII starts with a byte above ASCII. -/
theorem appendRune_nonascii (r : Nat) (h : 0x7F < r) :
    ∃ c tail, AppendRune r = c :: tail ∧ 0x80 ≤ c := by
  unfold AppendRune
  rw [if_neg (by omega)]
  split_ifs
  · exact ⟨_, _, rfl, (lead_or _).1⟩
  · exact ⟨_, _, rfl, by decide⟩
  · exact ⟨_, _, rfl, (lead_or _).2.1⟩
  · exact ⟨_, _, rfl, (lead_or _).2.2⟩

set_option maxRecDepth 100000 in
theorem appendRune_lower_ascii : ∀ b : UInt8, b < 0x80 →
    AppendRune (if 'A'.toNat ≤ b.toNat ∧ b.toNat ≤ 'Z'.toNat
      then b.toNat + ('a'.toNat - 'A'.toNat) else b.toNat) = [lowerByte b] ∧ b.toNat ≤ 0x7F :=
  forall_byte _ (by decide)

set_option maxRecDepth 100000 in
theorem lowerByte_lt : ∀ b : UInt8, lowerByte b < 0x80 → b < 0x80 :=
  forall_byte _ (by decide)

theorem loop_ascii (lowerCase : Nat → Nat) (b : UInt8) (rest : GoString) (h : b < 0x80) :
    Map.loop (unicodeToLower lowerCase) 0 (b :: rest)
      = lowerByte b :: Map.loop (unicodeToLower lowerCase) 0 rest := by
  obtain ⟨h1, h2⟩ := appendRune_lower_ascii b h
  rw [Map.loop, decode_ascii b rest h]
  simp only [unicodeToLower, if_pos h2, h1]
  rfl

theorem loop_nonascii (lowerCase : Nat → Nat) (hlc : LowerCaseAboveASCII lowerCase)
    (b : UInt8) (rest : GoString) (h : 0x80 ≤ b) :
    ∃ c tail, Map.loop (unicodeToLower lowerCase) 0 (b :: rest) = c :: tail
      ∧ (0x80 ≤ c ∨ c = 'i'.toUInt8 ∨ c = 'k'.toUInt8) := by
  have hr := decode_nonascii b rest h
  rw [Map.loop]
  generalize (DecodeRuneInString (b :: rest)).1 = r at hr
  generalize Map.loop (unicodeToLower lowerCase) _ rest = out
  have hu : unicodeToLower lowerCase r = lowerCase r := by
    unfold unicodeToLower; rw [if_neg (by omega)]
  rw [hu]
  rcases hlc r (by omega) with h1 | h1 | h1
  · obtain ⟨c, tail, he, hc⟩ := appendRune_nonascii _ h1
    exact ⟨c, tail ++ out, by rw [he]; rfl, Or.inl hc⟩
  · rw [h1]; exact ⟨_, out, rfl, Or.inr (Or.inl (by decide))⟩
  · rw [h1]; exact ⟨_, out, rfl, Or.inr (Or.inr (by decide))⟩

theorem hasPrefix_iff (s pre : GoString) : HasPrefix s pre = true ↔ pre <+: s := by
  rw [List.prefix_iff_eq_take]
  unfold HasPrefix
  constructor
  · intro h
    simp only [Bool.and_eq_true, decide_eq_true_eq, beq_iff_eq] at h
    exact h.2.symm
  · intro h
    simp only [Bool.and_eq_true, decide_eq_true_eq, beq_iff_eq]
    refine ⟨?_, h.symm⟩
    have := congrArg List.length h
    rw [List.length_take] at this
    omega

/-- A pattern of plain ASCII bytes that begins the lowered string begins the
ASCII-lowercased string. -/
theorem prefix_of_loop (lowerCase : Nat → Nat) (hlc : LowerCaseAboveASCII lowerCase) :
    ∀ (pat s : GoString),
      (∀ c ∈ pat, c < 0x80 ∧ c ≠ 'i'.toUInt8 ∧ c ≠ 'k'.toUInt8) →
      pat <+: Map.loop (unicodeToLower lowerCase) 0 s → pat <+: asciiLower s
  | [], _, _, _ => List.nil_prefix
  | p :: ps, [], _, h => by
    rw [Map.loop] at h
    exact absurd (List.prefix_nil.mp h) (List.cons_ne_nil _ _)
  | p :: ps, b :: rest, hpat, h => by
    by_cases hb : b < 0x80
    · rw [loop_ascii lowerCase b rest hb, List.cons_prefix_cons] at h
      have ih := prefix_of_loop lowerCase hlc ps rest
        (fun c hc => hpat c (List.mem_cons_of_mem _ hc)) h.2
      show p :: ps <+: lowerByte b :: asciiLower rest
      rw [List.cons_prefix_cons]
      exact ⟨h.1, ih⟩
    · obtain ⟨c, tail, he, hc⟩ := loop_nonascii lowerCase hlc b rest (UInt8.not_lt.mp hb)
      rw [he, List.cons_prefix_cons] at h
      obtain ⟨h1, h2, h3⟩ := hpat p (List.mem_cons_self _ _)
      rw [h.1] at h1 h2 h3
      rcases hc with hc | hc | hc
      · exact absurd h1 (UInt8.not_lt.mpr hc)
      · exact absurd hc h2
      · exact absurd hc h3

/-- A pattern of ASCII bytes that begins the ASCII-lowercased string begins the
lowered string. -/
theorem loop_of_prefix (lowerCase : Nat → Nat) :
    ∀ (pat s : GoString), (∀ c ∈ pat, c < 0x80) →
      pat <+: asciiLower s → pat <+: Map.loop (unicodeToLower lowerCase) 0 s
  | [], _, _, _ => List.nil_prefix
  | p :: ps, [], _, h => absurd (List.prefix_nil.mp h) (List.cons_ne_nil _ _)
  | p :: ps, b :: rest, hpat, h => by
    change p :: ps <+: lowerByte b :: asciiLower rest at h
    rw [List.cons_prefix_cons] at h
    have hb : b < 0x80 := lowerByte_lt b (h.1 ▸ hpat p (List.mem_cons_self _ _))
    rw [loop_ascii lowerCase b rest hb, List.cons_prefix_cons]
    exact ⟨h.1, loop_of_prefix lowerCase ps rest
      (fun c hc => hpat c (List.mem_cons_of_mem _ hc)) h.2⟩

/-- The prefix test on the lowered string is a test on the ASCII-lowercased string. -/
theorem hasPrefix_ToLower (lowerCase : Nat → Nat) (hlc : LowerCaseAboveASCII lowerCase)
    (pat s : GoString) (hpat : ∀ c ∈ pat, c < 0x80 ∧ c ≠ 'i'.toUInt8 ∧ c ≠ 'k'.toUInt8) :
    HasPrefix (ToLower lowerCase s) pat = true ↔ pat <+: asciiLower s := by
  rw [hasPrefix_iff]
  unfold ToLower
  split_ifs
  · exact Iff.rfl
  · exact ⟨prefix_of_loop lowerCase hlc pat s hpat,
      loop_of_prefix lowerCase pat s (fun c hc => (hpat c hc).1)⟩

theorem hasPrefix_ToLower_intro (lowerCase : Nat → Nat)
    (pat s : GoString) (hpat : ∀ c ∈ pat, c < 0x80) (h : pat <+: asciiLower s) :
    HasPrefix (ToLower lowerCase s) pat = true := by
  rw [hasPrefix_iff]
  unfold ToLower
  split_ifs
  · exact h
  · exact loop_of_prefix lowerCase pat s hpat h

/-! ## WithBearer -/

theorem str_bearer_fmt : str "Bearer %s" = [66, 101, 97, 114, 101, 114, 32, 37, 115] := by
  decide

theorem Sprintf_Bearer (t : GoString) :
    Sprintf (str "Bearer %s") [t] = str "Bearer " ++ t := by
  rw [str_bearer_fmt]
  simp +decide [Sprintf]
  rfl

theorem bearer_plain :
    ∀ c ∈ str "bearer ", c < 0x80 ∧ c ≠ 'i'.toUInt8 ∧ c ≠ 'k'.toUInt8 := by
  decide

theorem bearer_length : (str "bearer ").length = 7 := by decide

theorem lowerCaseFragment_above : LowerCaseAboveASCII lowerCaseFragment := by
  intro r hr
  unfold lowerCaseFragment
  split_ifs
  · exact Or.inr (Or.inl rfl)
  · exact Or.inr (Or.inr rfl)
  · exact Or.inl (by omega)
  · exact Or.inl hr

theorem sliceFrom_append (p t : GoString) : sliceFrom (p ++ t) p.length = some t := by
  simp [sliceFrom]

/-- The header value `WithBearer` stores for the token it ends up with. -/
theorem SetHeader_bearer_index (r : Request) (token : GoString) :
    (r.SetHeader AuthorizationHeader
      (variadic [Sprintf (str "Bearer %s") [token]])).Headers.index AuthorizationHeader
      = some [str "Bearer " ++ token] := by
  have hv : variadic [Sprintf (str "Bearer %s") [token]] = some [str "Bearer " ++ token] := by
    simp [variadic, Sprintf_Bearer]
  rw [hv]
  simp [HeaderMap.index, SetHeader_some_entry_self]

/-- A token with a bearer prefix: the prefix is cut off before "Bearer " is put in
front. -/
theorem WithBearer_strips_once (lowerCase : Nat → Nat) (r : Request) (p t : GoString)
    (hp : asciiLower p = str "bearer ") :
    r.WithBearer lowerCase (p ++ t)
      = some (r.SetHeader AuthorizationHeader (variadic [Sprintf (str "Bearer %s") [t]])) := by
  have hlen : p.length = 7 := by
    have := congrArg List.length hp
    rwa [asciiLower, List.length_map, bearer_length] at this
  have hpre : HasPrefix (ToLower lowerCase (p ++ t)) (str "bearer ") = true := by
    apply hasPrefix_ToLower_intro lowerCase _ _ (fun c hc => (bearer_plain c hc).1)
    rw [asciiLower, List.map_append, ← asciiLower, hp]
    exact List.prefix_append _ _
  unfold Request.WithBearer
  simp only [hpre, if_true]
  rw [← hlen, sliceFrom_append]
  rfl

/-- A token without a bearer prefix is used as it is. -/
theorem WithBearer_keeps_token (lowerCase : Nat → Nat) (hlc : LowerCaseAboveASCII lowerCase)
    (r : Request) (token : GoString) (hp : asciiLower (token.take 7) ≠ str "bearer ") :
    r.WithBearer lowerCase token
      = some (r.SetHeader AuthorizationHeader
          (variadic [Sprintf (str "Bearer %s") [token]])) := by
  have hpre : ¬ HasPrefix (ToLower lowerCase token) (str "bearer ") = true := by
    rw [hasPrefix_ToLower lowerCase hlc _ _ bearer_plain, List.prefix_iff_eq_take,
      bearer_length]
    intro h
    apply hp
    rw [asciiLower, List.map_take, ← asciiLower]
    exact h.symm
  unfold Request.WithBearer
  simp only [hpre, if_false]
  rfl

/-- C8: for every string `t` and every prefix `p` that equals "bearer " when
ASCII-lowercased, `WithBearer(p + t)` sets `Headers()["Authorization"]` to exactly the
single value "Bearer " + t; and for every token without such a prefix `WithBearer(token)`
sets it to exactly "Bearer " + token. The second half relies on the Unicode tables
in one respect: no rune above ASCII has a lower case among the letters of "bearer ". -/
theorem WithBearer_sets_single_bearer_value (lowerCase : Nat → Nat) (r : Request)
    (p t token : GoString) :
    (asciiLower p = str "bearer " →
        (r.WithBearer lowerCase (p ++ t)).map
            (fun r1 => r1.Headers.index AuthorizationHeader)
          = some (some [str "Bearer " ++ t]))
      ∧ (LowerCaseAboveASCII lowerCase → asciiLower (token.take 7) ≠ str "bearer " →
        (r.WithBearer lowerCase token).map
            (fun r1 => r1.Headers.index AuthorizationHeader)
          = some (some [str "Bearer " ++ token])) := by
  constructor
  · intro hp
    rw [WithBearer_strips_once lowerCase r p t hp, Option.map_some', SetHeader_bearer_index]
  · intro hlc hp
    rw [WithBearer_keeps_token lowerCase hlc r token hp, Option.map_some',
      SetHeader_bearer_index]

theorem WithBearer_sets_single_bearer_value_witness :
    (zeroRequest.WithBearer lowerCaseFragment (str "Bearer " ++ str "abc")).map
        (fun r1 => r1.Headers.index AuthorizationHeader)
      = some (some [str "Bearer " ++ str "abc"])
    ∧ (zeroRequest.WithBearer lowerCaseFragment (str "abc")).map
        (fun r1 => r1.Headers.index AuthorizationHeader)
      = some (some [str "Bearer " ++ str "abc"]) :=
  ⟨(WithBearer_sets_single_bearer_value lowerCaseFragment zeroRequest (str "Bearer ")
      (str "abc") (str "abc")).1 (by decide),
   (WithBearer_sets_single_bearer_value lowerCaseFragment zeroRequest (str "Bearer ")
      (str "abc") (str "abc")).2 lowerCaseFragment_above (by decide)⟩

/-- C9, as the code has it: for every token `t` that does not itself begin with a
prefix that is "bearer " when ASCII-lowercased, `WithBearer("Bearer " + t)` and
`WithBearer(t)` leave the same request, whose Authorization header is the single value
"Bearer " + t. -/
theorem WithBearer_prefix_idempotent (lowerCase : Nat → Nat)
    (hlc : LowerCaseAboveASCII lowerCase) (r : Request) (t : GoString)
    (ht : asciiLower (t.take 7) ≠ str "bearer ") :
    r.WithBearer lowerCase (str "Bearer " ++ t) = r.WithBearer lowerCase t
      ∧ (r.WithBearer lowerCase t).map (fun r1 => r1.Headers.index AuthorizationHeader)
        = some (some [str "Bearer " ++ t]) := by
  rw [WithBearer_strips_once lowerCase r (str "Bearer ") t (by decide),
    WithBearer_keeps_token lowerCase hlc r t ht, Option.map_some', SetHeader_bearer_index]
  exact ⟨rfl, rfl⟩

theorem WithBearer_prefix_idempotent_witness :
    zeroRequest.WithBearer lowerCaseFragment (str "Bearer " ++ str "abc")
        = zeroRequest.WithBearer lowerCaseFragment (str "abc")
      ∧ (zeroRequest.WithBearer lowerCaseFragment (str "abc")).map
          (fun r1 => r1.Headers.index AuthorizationHeader)
        = some (some [str "Bearer " ++ str "abc"]) :=
  WithBearer_prefix_idempotent lowerCaseFragment lowerCaseFragment_above zeroRequest
    (str "abc") (by decide)

/-- C9, as stated, fails for the token "Bearer x": with the prefix put in front the
header value is "Bearer Bearer x", without it "Bearer x". -/
theorem WithBearer_prefix_not_idempotent :
    (zeroRequest.WithBearer lowerCaseFragment (str "Bearer " ++ str "Bearer x")).map
        (fun r1 => r1.Headers.index AuthorizationHeader)
      = some (some [str "Bearer Bearer x"])
    ∧ (zeroRequest.WithBearer lowerCaseFragment (str "Bearer x")).map
        (fun r1 => r1.Headers.index AuthorizationHeader)
      = some (some [str "Bearer x"])
    ∧ (zeroRequest.WithBearer lowerCaseFragment (str "Bearer " ++ str "Bearer x")).map
        (fun r1 => r1.Headers.index AuthorizationHeader)
      ≠ (zeroRequest.WithBearer lowerCaseFragment (str "Bearer x")).map
        (fun r1 => r1.Headers.index AuthorizationHeader) := by
  decide

/-! ## Base64 -/

theorem and_63 (x : Nat) : x &&& 0x3F = x % 64 :=
  Nat.and_pow_two_sub_one_eq_mod x 6

/-- Bitwise or of a multiple of `2 ^ k` and a number below `2 ^ k` is their sum. -/
theorem or_eq_add (x y k : Nat) (hx : x % 2 ^ k = 0) (hy : y < 2 ^ k) : x ||| y = x + y := by
  have hx2 : 2 ^ k * (x / 2 ^ k) = x := Nat.mul_div_cancel' (Nat.dvd_of_mod_eq_zero hx)
  rw [← hx2, ← Nat.mul_add_lt_is_or hy]

theorem toUInt8_eq (n : Nat) (b : UInt8) (h : n % 256 = b.toNat) : n.toUInt8 = b := by
  apply UInt8.toNat.inj
  rw [← h]
  rfl

theorem decodeByte_encodeByte : ∀ i : Fin 64, decodeByte (encodeByte i.val) = some i.val := by
  decide

theorem encodeByte_ne_padding : ∀ i : Fin 64, encodeByte i.val ≠ StdPadding := by
  decide

theorem decodeByte_sextet (v : Nat) : decodeByte (encodeByte (v &&& 0x3F)) = some (v % 64) := by
  rw [and_63]
  exact decodeByte_encodeByte ⟨v % 64, Nat.mod_lt _ (by decide)⟩

theorem sextet_ne_padding (v : Nat) : encodeByte (v &&& 0x3F) ≠ StdPadding := by
  rw [and_63]
  exact encodeByte_ne_padding ⟨v % 64, Nat.mod_lt _ (by decide)⟩

/-- Three bytes packed into a 24-bit value. -/
theorem pack3 (a b c : UInt8) :
    a.toNat <<< 16 ||| b.toNat <<< 8 ||| c.toNat
      = a.toNat * 65536 + b.toNat * 256 + c.toNat := by
  have ha := a.toNat_lt
  have hb := b.toNat_lt
  have hc := c.toNat_lt
  simp only [Nat.shiftLeft_eq]
  rw [or_eq_add (a.toNat * 2 ^ 16) (b.toNat * 2 ^ 8) 16 (by omega) (by omega),
    or_eq_add _ c.toNat 8 (by omega) (by omega)]

theorem pack1 (a : UInt8) : a.toNat <<< 16 = a.toNat * 65536 := by
  rw [Nat.shiftLeft_eq]

theorem pack2 (a b : UInt8) :
    a.toNat <<< 16 ||| b.toNat <<< 8 = a.toNat * 65536 + b.toNat * 256 := by
  have hb := b.toNat_lt
  simp only [Nat.shiftLeft_eq]
  rw [or_eq_add (a.toNat * 2 ^ 16) (b.toNat * 2 ^ 8) 16 (by omega) (by omega)]

/-- Four sextets put together again. -/
theorem unpack4 (v0 v1 v2 v3 : Nat) (h1 : v1 < 64) (h2 : v2 < 64) (h3 : v3 < 64) :
    v0 <<< 18 ||| v1 <<< 12 ||| v2 <<< 6 ||| v3
      = v0 * 262144 + v1 * 4096 + v2 * 64 + v3 := by
  simp only [Nat.shiftLeft_eq]
  rw [or_eq_add (v0 * 2 ^ 18) (v1 * 2 ^ 12) 18 (by omega) (by omega),
    or_eq_add _ (v2 * 2 ^ 6) 12 (by omega) (by omega),
    or_eq_add _ v3 6 (by omega) (by omega)]

theorem unpack3 (v0 v1 v2 : Nat) (h1 : v1 < 64) (h2 : v2 < 64) :
    v0 <<< 18 ||| v1 <<< 12 ||| v2 <<< 6 = v0 * 262144 + v1 * 4096 + v2 * 64 := by
  simp only [Nat.shiftLeft_eq]
  rw [or_eq_add (v0 * 2 ^ 18) (v1 * 2 ^ 12) 18 (by omega) (by omega),
    or_eq_add _ (v2 * 2 ^ 6) 12 (by omega) (by omega)]

theorem unpack2 (v0 v1 : Nat) (h1 : v1 < 64) :
    v0 <<< 18 ||| v1 <<< 12 = v0 * 262144 + v1 * 4096 := by
  simp only [Nat.shiftLeft_eq]
  rw [or_eq_add (v0 * 2 ^ 18) (v1 * 2 ^ 12) 18 (by omega) (by omega)]

/-- Decoding undoes encoding. -/
theorem base64StdDecode_EncodeToString :
    ∀ s : GoString, base64StdDecode (EncodeToString s) = some s
  | [] => rfl
  | [b0] => by
    have h0 := b0.toNat_lt
    simp only [EncodeToString, base64StdDecode, and_self, if_true, decodeByte_sextet,
      pack1, Nat.shiftRight_eq_div_pow]
    rw [unpack2 _ _ (Nat.mod_lt _ (by decide)), toUInt8_eq _ b0 (by omega)]
  | [b0, b1] => by
    have h0 := b0.toNat_lt
    have h1 := b1.toNat_lt
    simp only [EncodeToString, base64StdDecode, true_and, if_true, decodeByte_sextet,
      sextet_ne_padding, if_false, pack2, Nat.shiftRight_eq_div_pow]
    rw [unpack3 _ _ _ (Nat.mod_lt _ (by decide)) (Nat.mod_lt _ (by decide)),
      toUInt8_eq _ b0 (by omega), toUInt8_eq _ b1 (by omega)]
  | b0 :: b1 :: b2 :: rest => by
    have h0 := b0.toNat_lt
    have h1 := b1.toNat_lt
    have h2 := b2.toNat_lt
    have ih := base64StdDecode_EncodeToString rest
    have hs := decodeByte_sextet (b0.toNat * 65536 + b1.toNat * 256 + b2.toNat)
    simp only [EncodeToString, base64StdDecode, decodeByte_sextet,
      sextet_ne_padding, and_false, if_false, pack3, Nat.shiftRight_eq_div_pow, ih, hs]
    rw [unpack4 _ _ _ _ (Nat.mod_lt _ (by decide)) (Nat.mod_lt _ (by decide))
        (Nat.mod_lt _ (by decide)),
      toUInt8_eq _ b0 (by omega), toUInt8_eq _ b1 (by omega), toUInt8_eq _ b2 (by omega)]

theorem encodeByte_mem : ∀ i : Fin 64, encodeByte i.val ∈ encodeStd := by
  decide

theorem sextet_mem (v : Nat) :
    encodeByte (v &&& 0x3F) ∈ encodeStd ∨ encodeByte (v &&& 0x3F) = StdPadding := by
  rw [and_63]
  exact Or.inl (encodeByte_mem ⟨v % 64, Nat.mod_lt _ (by decide)⟩)

/-- The encoding consists of characters of the standard alphabet and of "=". -/
theorem EncodeToString_alphabet :
    ∀ s : GoString, ∀ c ∈ EncodeToString s, c ∈ encodeStd ∨ c = StdPadding
  | [], c, hc => by simp [EncodeToString] at hc
  | [b0], c, hc => by
    simp only [EncodeToString, List.mem_cons, List.mem_singleton, List.not_mem_nil,
      or_false] at hc
    rcases hc with rfl | rfl | rfl | rfl
    · exact sextet_mem _
    · exact sextet_mem _
    · exact Or.inr rfl
    · exact Or.inr rfl
  | [b0, b1], c, hc => by
    simp only [EncodeToString, List.mem_cons, List.mem_singleton, List.not_mem_nil,
      or_false] at hc
    rcases hc with rfl | rfl | rfl | rfl
    · exact sextet_mem _
    · exact sextet_mem _
    · exact sextet_mem _
    · exact Or.inr rfl
  | b0 :: b1 :: b2 :: rest, c, hc => by
    simp only [EncodeToString, List.mem_cons] at hc
    rcases hc with rfl | rfl | rfl | rfl | hc
    · exact sextet_mem _
    · exact sextet_mem _
    · exact sextet_mem _
    · exact sextet_mem _
    · exact EncodeToString_alphabet rest c hc

/-- The encoding is padded to a whole number of groups of four characters. -/
theorem EncodeToString_length :
    ∀ s : GoString, (EncodeToString s).length = 4 * ((s.length + 2) / 3)
  | [] => rfl
  | [_] => by simp [EncodeToString]
  | [_, _] => by simp [EncodeToString]
  | b0 :: b1 :: b2 :: rest => by
    have ih := EncodeToString_length rest
    simp only [EncodeToString, List.length_cons, ih]
    omega

theorem Sprintf_auth (username password : GoString) :
    Sprintf (str "%s:%s") [username, password] = username ++ str ":" ++ password := by
  have h : str "%s:%s" = [37, 115, 58, 37, 115] := by decide
  have h2 : str ":" = [58] := by decide
  rw [h, h2]
  simp +decide [Sprintf]

theorem Sprintf_Basic (value : GoString) :
    Sprintf (str "Basic %s") [value] = str "Basic " ++ value := by
  have h : str "Basic %s" = [66, 97, 115, 105, 99, 32, 37, 115] := by decide
  rw [h]
  simp +decide [Sprintf]
  rfl

/-- C10: for every username and password, `WithBasicAuth(username, password)` sets
`Headers()["Authorization"]` to exactly the single value "Basic " followed by the
standard base64 encoding of `username + ":" + password`, whatever was stored there
before; the encoding uses the standard alphabet with "=" padding to a multiple of four
characters, and decoding it yields `username + ":" + password` again. For "foo" and
"bar" the value is "Basic Zm9vOmJhcg==". -/
theorem WithBasicAuth_sets_basic_header (r : Request) (username password : GoString) :
    (r.WithBasicAuth username password).Headers.index AuthorizationHeader
        = some [str "Basic " ++ EncodeToString (username ++ str ":" ++ password)]
      ∧ base64StdDecode (EncodeToString (username ++ str ":" ++ password))
        = some (username ++ str ":" ++ password)
      ∧ (∀ c ∈ EncodeToString (username ++ str ":" ++ password),
          c ∈ encodeStd ∨ c = StdPadding)
      ∧ (EncodeToString (username ++ str ":" ++ password)).length
        = 4 * (((username ++ str ":" ++ password).length + 2) / 3)
      ∧ (zeroRequest.WithBasicAuth (str "foo") (str "bar")).Headers.index AuthorizationHeader
        = some [str "Basic Zm9vOmJhcg=="] := by
  refine ⟨?_, base64StdDecode_EncodeToString _, EncodeToString_alphabet _,
    EncodeToString_length _, by decide⟩
  have hv : variadic [Sprintf (str "Basic %s")
      [EncodeToString (Sprintf (str "%s:%s") [username, password])]]
      = some [str "Basic " ++ EncodeToString (username ++ str ":" ++ password)] := by
    simp [variadic, Sprintf_Basic, Sprintf_auth]
  unfold Request.WithBasicAuth
  simp only [hv]
  simp [HeaderMap.index, SetHeader_some_entry_self]

theorem WithBasicAuth_sets_basic_header_witness :
    (sampleRequest.WithBasicAuth (str "foo") (str "bar")).Headers.index AuthorizationHeader
        = some [str "Basic " ++ EncodeToString (str "foo" ++ str ":" ++ str "bar")]
      ∧ base64StdDecode (EncodeToString (str "foo" ++ str ":" ++ str "bar"))
        = some (str "foo" ++ str ":" ++ str "bar") :=
  ⟨(WithBasicAuth_sets_basic_header sampleRequest (str "foo") (str "bar")).1,
    (WithBasicAuth_sets_basic_header sampleRequest (str "foo") (str "bar")).2.1⟩

/-! ## Content type, body and constructors -/

theorem SetHeader_single_index (r : Request) (name v : GoString) :
    (r.SetHeader name (variadic [v])).Headers.index name = some [v] := by
  have hv : variadic [v] = some [v] := rfl
  rw [hv]
  simp [HeaderMap.index, SetHeader_some_entry_self]

/-- C11: for every request and value, `SetContentType(v)` is `SetHeader("Content-Type",
v)` and leaves `Headers()["Content-Type"]` equal to exactly `[v]`, whatever was there
before; `WithJSON`, `WithPlainText` and `WithForm` leave it equal to exactly
`["application/json"]`, `["text/plain"]` and `["application/x-www-form-urlencoded"]`,
for every input and every prior header state. -/
theorem SetContentType_sets_single_value (r : Request) (v : GoString) :
    r.SetContentType v = r.SetHeader (str "Content-Type") (variadic [v])
      ∧ (r.SetContentType v).Headers.index (str "Content-Type") = some [v]
      ∧ (∀ (α : Type) (Encode : α → GoString) (data : α),
          (r.WithJSON Encode data).Headers.index (str "Content-Type")
            = some [str "application/json"])
      ∧ (∀ txt : GoString,
          (r.WithPlainText txt).Headers.index (str "Content-Type") = some [str "text/plain"])
      ∧ (∀ (Encode : HeaderMap → GoString) (values : HeaderMap),
          (r.WithForm Encode values).Headers.index (str "Content-Type")
            = some [str "application/x-www-form-urlencoded"]) :=
  ⟨rfl, SetHeader_single_index r _ v,
    fun _ _ _ => SetHeader_single_index _ _ _,
    fun _ => SetHeader_single_index _ _ _,
    fun _ _ => SetHeader_single_index _ _ _⟩

/-- Reading to the end returns what has been read so far followed by all unread
bytes, whenever the buffer offered is not empty and the fuel exceeds the number of
unread bytes. -/
theorem ReadAll_loop (chunk : Nat) (hc : 0 < chunk) :
    ∀ (fuel : Nat) (r : Reader) (b : GoString), r.unread.length < fuel →
      ReadAll.loop chunk fuel r b = some (b ++ r.unread)
  | 0, _, _, h => absurd h (Nat.not_lt_zero _)
  | fuel + 1, r, b, h => by
    unfold ReadAll.loop Reader.Read
    by_cases he : r.unread = []
    · simp [he]
    · simp only [he, if_false]
      have hlen : 0 < r.unread.length := List.length_pos.mpr he
      have h1 : (r.unread.drop chunk).length < fuel := by
        rw [List.length_drop]; omega
      rw [ReadAll_loop chunk hc fuel ⟨r.unread.drop chunk⟩ (b ++ r.unread.take chunk) h1,
        List.append_assoc, List.take_append_drop]

theorem ReadAll_eq (r : Reader) : ReadAll r = some r.unread := by
  unfold ReadAll
  rw [ReadAll_loop 512 (by decide) _ r [] (Nat.lt_succ_self _)]
  rfl

theorem SetHeader_body (r : Request) (name : GoString) (values : StringSlice) :
    (r.SetHeader name values).body = r.body := by
  unfold Request.SetHeader
  split_ifs <;> rfl

/-- C12: for every request, with or without a body set before, and every string
`text`, after `WithPlainText(text)` the body is a reader and reading it to the end
yields exactly the bytes of `text`. -/
theorem WithPlainText_body_reads_text (r : Request) (text : GoString) :
    ∃ rdr, (r.WithPlainText text).Body = some rdr ∧ ReadAll rdr = some text := by
  refine ⟨NewReader text, ?_, ReadAll_eq _⟩
  unfold Request.WithPlainText Request.SetContentType Request.Body
  rw [SetHeader_body]
  rfl

/-- C13: for every url, `Get`, `Post`, `Put`, `Patch` and `Delete` return the request
`NewRequest(url, M)` with `M` the method "GET", "POST", "PUT", "PATCH", "DELETE":
its `URL()` is the url unchanged, its `Method()` is `M`, its `Headers()` is the empty
map and its `Body()` is absent. -/
theorem method_shortcuts (url : GoString) :
    (Get url = NewRequest url (str "GET") ∧ Post url = NewRequest url (str "POST")
        ∧ Put url = NewRequest url (str "PUT") ∧ Patch url = NewRequest url (str "PATCH")
        ∧ Delete url = NewRequest url (str "DELETE"))
      ∧ (∀ M : GoString, (NewRequest url M).URL = url ∧ (NewRequest url M).Method = M
          ∧ (NewRequest url M).Headers = some [] ∧ (NewRequest url M).Body = none)
      ∧ ((Get url).URL = url ∧ (Get url).Method = str "GET"
          ∧ (Get url).Headers = some [] ∧ (Get url).Body = none)
      ∧ ((Post url).URL = url ∧ (Post url).Method = str "POST"
          ∧ (Post url).Headers = some [] ∧ (Post url).Body = none)
      ∧ ((Put url).URL = url ∧ (Put url).Method = str "PUT"
          ∧ (Put url).Headers = some [] ∧ (Put url).Body = none)
      ∧ ((Patch url).URL = url ∧ (Patch url).Method = str "PATCH"
          ∧ (Patch url).Headers = some [] ∧ (Patch url).Body = none)
      ∧ ((Delete url).URL = url ∧ (Delete url).Method = str "DELETE"
          ∧ (Delete url).Headers = some [] ∧ (Delete url).Body = none) :=
  ⟨⟨rfl, rfl, rfl, rfl, rfl⟩, fun _ => ⟨rfl, rfl, rfl, rfl⟩, ⟨rfl, rfl, rfl, rfl⟩,
    ⟨rfl, rfl, rfl, rfl⟩, ⟨rfl, rfl, rfl, rfl⟩, ⟨rfl, rfl, rfl, rfl⟩, ⟨rfl, rfl, rfl, rfl⟩⟩

/-! ## Builder calls: frame and invariant -/

/-- The encoding of a rune is a single ASCII byte or starts with a byte above ASCII. -/
theorem appendRune_cases (x : Nat) :
    (∃ c, AppendRune x = [c]) ∨ ∃ c tail, AppendRune x = c :: tail ∧ 0x80 ≤ c := by
  by_cases hx : x ≤ 0x7F
  · left; exact ⟨x.toUInt8, by unfold AppendRune; rw [if_pos hx]⟩
  · right; exact appendRune_nonascii x (by omega)

/-- ASCII bytes at the start of a mapped string come from at least as many bytes of
the string: every rune takes at least one byte. -/
theorem prefix_length_le_of_loop (mapping : Nat → Nat) :
    ∀ (s pat : GoString) (skip : Nat), (∀ c ∈ pat, c < 0x80) →
      pat <+: Map.loop mapping skip s → pat.length ≤ s.length
  | [], pat, skip, _, h => by
    rw [Map.loop] at h
    rw [List.prefix_nil.mp h]
  | b :: rest, pat, skip + 1, hpat, h => by
    rw [Map.loop] at h
    have := prefix_length_le_of_loop mapping rest pat skip hpat h
    simp only [List.length_cons]; omega
  | b :: rest, [], 0, _, _ => Nat.zero_le _
  | b :: rest, p :: ps, 0, hpat, h => by
    rw [Map.loop] at h
    rcases appendRune_cases (mapping (DecodeRuneInString (b :: rest)).1) with
      ⟨c, hc⟩ | ⟨c, tail, hc, hge⟩
    · rw [hc, List.singleton_append, List.cons_prefix_cons] at h
      have := prefix_length_le_of_loop mapping rest ps _
        (fun c hc => hpat c (List.mem_cons_of_mem _ hc)) h.2
      simp only [List.length_cons]; omega
    · rw [hc, List.cons_append, List.cons_prefix_cons] at h
      have hp := (hpat p (List.mem_cons_self _ _))
      rw [h.1] at hp
      exact absurd hp (UInt8.not_lt.mpr hge)

/-- A token whose lowered form starts with "bearer " has at least seven bytes, so the
slice expression `token[7:]` never panics. -/
theorem bearer_slice_in_range (lowerCase : Nat → Nat) (token : GoString)
    (h : HasPrefix (ToLower lowerCase token) (str "bearer ") = true) :
    7 ≤ token.length := by
  rw [hasPrefix_iff] at h
  unfold ToLower at h
  split_ifs at h
  · have := h.length_le
    rwa [List.length_map, bearer_length] at this
  · have := prefix_length_le_of_loop _ token _ 0 (fun c hc => (bearer_plain c hc).1) h
    rwa [bearer_length] at this

/-- `WithBearer` always returns: it sets the Authorization header to "Bearer " and
some token. -/
theorem RequestPtr.WithBearer_returns (lowerCase : Nat → Nat) (r : RequestPtr)
    (token : GoString) :
    ∃ tok, r.WithBearer lowerCase token
      = some (r.SetHeader AuthorizationHeader (variadic [Sprintf (str "Bearer %s") [tok]])) := by
  unfold RequestPtr.WithBearer
  by_cases h : HasPrefix (ToLower lowerCase token) (str "bearer ") = true
  · have h7 := bearer_slice_in_range lowerCase token h
    exact ⟨token.drop 7, by simp [h, sliceFrom, h7]⟩
  · exact ⟨token, by simp [h]⟩

theorem SetHeader_url (r : Request) (name : GoString) (values : StringSlice) :
    (r.SetHeader name values).url = r.url := by
  unfold Request.SetHeader
  split_ifs <;> rfl

theorem SetHeader_method (r : Request) (name : GoString) (values : StringSlice) :
    (r.SetHeader name values).method = r.method := by
  unfold Request.SetHeader
  split_ifs <;> rfl

theorem SetHeader_headers_ne_none (r : Request) (name : GoString) (values : StringSlice) :
    (r.SetHeader name values).headers ≠ none := by
  unfold Request.SetHeader
  split_ifs <;> simp

/-- The record a pointer-level builder method leaves is the record the method leaves
when embedded as a function on records. -/
theorem RequestPtr.val_of_method (lowerCase : Nat → Nat) (r : RequestPtr) :
    (∀ rdr, (r.SetBody rdr).val = r.val.SetBody rdr)
      ∧ (∀ name values, (r.SetHeader name values).val = r.val.SetHeader name values)
      ∧ (∀ name, (r.RemoveHeader name).val = r.val.RemoveHeader name)
      ∧ (∀ value, (r.SetContentType value).val = r.val.SetContentType value)
      ∧ (∀ (α : Type) (Encode : α → GoString) (data : α),
          (r.WithJSON Encode data).val = r.val.WithJSON Encode data)
      ∧ (∀ txt, (r.WithPlainText txt).val = r.val.WithPlainText txt)
      ∧ (∀ Encode values, (r.WithForm Encode values).val = r.val.WithForm Encode values)
      ∧ (∀ token, (r.WithBearer lowerCase token).map (fun q => q.val)
          = r.val.WithBearer lowerCase token)
      ∧ (∀ username password,
          (r.WithBasicAuth username password).val = r.val.WithBasicAuth username password) := by
  refine ⟨fun _ => rfl, fun _ _ => rfl, fun _ => rfl, fun _ => rfl, fun _ _ _ => rfl,
    fun _ => rfl, fun _ _ => rfl, ?_, fun _ _ => rfl⟩
  intro token
  unfold RequestPtr.WithBearer Request.WithBearer
  split_ifs
  · cases sliceFrom token 7 <;> rfl
  · rfl

/-- Every builder call returns, to the address it was called on, with url and method
unchanged and a header map that is not nil if it was not nil before. -/
theorem BuilderCall.call_frame (lowerCase : Nat → Nat) (c : BuilderCall) (r : RequestPtr) :
    ∃ q, c.call lowerCase r = some q ∧ q.addr = r.addr ∧ q.val.URL = r.val.URL
      ∧ q.val.Method = r.val.Method ∧ (r.val.Headers ≠ none → q.val.Headers ≠ none) := by
  have hset : ∀ (p : RequestPtr) name values, (p.SetHeader name values).addr = p.addr
      ∧ (p.SetHeader name values).val.URL = p.val.URL
      ∧ (p.SetHeader name values).val.Method = p.val.Method
      ∧ (r.val.Headers ≠ none → (p.SetHeader name values).val.Headers ≠ none) :=
    fun p name values => ⟨rfl, SetHeader_url _ _ _, SetHeader_method _ _ _,
      fun _ => SetHeader_headers_ne_none _ _ _⟩
  cases c with
  | SetBody rdr => exact ⟨_, rfl, rfl, rfl, rfl, fun h => h⟩
  | SetContentType value => exact ⟨_, rfl, hset r _ _⟩
  | WithJSON α Encode data => exact ⟨_, rfl, hset (r.SetBody _) _ _⟩
  | WithPlainText txt => exact ⟨_, rfl, hset (r.SetBody _) _ _⟩
  | WithForm Encode values => exact ⟨_, rfl, hset (r.SetBody _) _ _⟩
  | WithBearer token =>
    obtain ⟨tok, h⟩ := RequestPtr.WithBearer_returns lowerCase r token
    exact ⟨_, h, hset r _ _⟩
  | WithBasicAuth username password => exact ⟨_, rfl, hset r _ _⟩
  | SetHeader name values => exact ⟨_, rfl, hset r _ _⟩
  | RemoveHeader name => exact ⟨_, rfl, hset r _ _⟩

/-- A chain of builder calls returns, with a header map that is not nil if it started
with one. -/
theorem BuilderCall.chain_headers (lowerCase : Nat → Nat) :
    ∀ (cs : List BuilderCall) (r : RequestPtr), r.val.Headers ≠ none →
      ∃ q, BuilderCall.chain lowerCase cs r = some q ∧ q.addr = r.addr
        ∧ q.val.Headers ≠ none
  | [], r, h => ⟨r, rfl, rfl, h⟩
  | c :: cs, r, h => by
    obtain ⟨q, hq, ha, _, _, hh⟩ := BuilderCall.call_frame lowerCase c r
    obtain ⟨q2, hq2, ha2, hh2⟩ := BuilderCall.chain_headers lowerCase cs q (hh h)
    exact ⟨q2, by rw [BuilderCall.chain, hq]; exact hq2, ha2.trans ha, hh2⟩

/-- C14: for every url and method the header map of `NewRequest(url, method)` is an
empty map that is not nil, and after any finite sequence of builder calls (`SetBody`,
`SetContentType`, `WithJSON`, `WithPlainText`, `WithForm`, `WithBearer`,
`WithBasicAuth`, `SetHeader`, `RemoveHeader`) on it every call has returned and
`Headers()` is still not nil. -/
theorem headers_never_nil (lowerCase : Nat → Nat) (url method : GoString) (addr : Nat)
    (calls : List BuilderCall) :
    (NewRequest url method).Headers = some []
      ∧ ∃ q, BuilderCall.chain lowerCase calls ⟨addr, NewRequest url method⟩ = some q
          ∧ q.val.Headers ≠ none := by
  refine ⟨rfl, ?_⟩
  obtain ⟨q, hq, _, hh⟩ := BuilderCall.chain_headers lowerCase calls
    ⟨addr, NewRequest url method⟩ (by simp [NewRequest, Request.Headers])
  exact ⟨q, hq, hh⟩

/-- C20: every builder call returns the pointer it was called on and leaves `URL()`
and `Method()` unchanged; `SetHeader`, `RemoveHeader`, `SetContentType`, `WithBearer`
and `WithBasicAuth` leave `Body()` unchanged, and `SetBody` leaves `Headers()`
unchanged. -/
theorem builder_frame (lowerCase : Nat → Nat) (r : RequestPtr) :
    (∀ c : BuilderCall, ∃ q, c.call lowerCase r = some q ∧ q.addr = r.addr
        ∧ q.val.URL = r.val.URL ∧ q.val.Method = r.val.Method)
      ∧ (∀ name values, (r.SetHeader name values).val.Body = r.val.Body)
      ∧ (∀ name, (r.RemoveHeader name).val.Body = r.val.Body)
      ∧ (∀ value, (r.SetContentType value).val.Body = r.val.Body)
      ∧ (∀ token, ∃ q, r.WithBearer lowerCase token = some q ∧ q.val.Body = r.val.Body)
      ∧ (∀ username password, (r.WithBasicAuth username password).val.Body = r.val.Body)
      ∧ (∀ rdr, (r.SetBody rdr).val.Headers = r.val.Headers) := by
  refine ⟨?_, fun _ _ => SetHeader_body _ _ _, fun _ => SetHeader_body _ _ _,
    fun _ => SetHeader_body _ _ _, ?_, fun _ _ => SetHeader_body _ _ _, fun _ => rfl⟩
  · intro c
    obtain ⟨q, hq, ha, hu, hm, _⟩ := BuilderCall.call_frame lowerCase c r
    exact ⟨q, hq, ha, hu, hm⟩
  · intro token
    obtain ⟨tok, h⟩ := RequestPtr.WithBearer_returns lowerCase r token
    exact ⟨_, h, SetHeader_body _ _ _⟩

/-! ## The client -/

/-- What `standardClient.Do` returns once the target url is resolved: the construction
error, the transport error, or the wrapped response; exactly one of response and error
is nil. -/
theorem standardClient.Do_of_target {Ctx : Type}
    (NewRequestWithContext : Ctx → GoString → GoString → Option Reader → Except Error HTTPRequest)
    (httpClientDo : Int → HTTPRequest → Except Error HTTPResponse)
    (range : HeaderMap → Entries) (c : standardClient) (ctx : Ctx) (req : Request)
    (target : GoString) (ht : getTargetURL c.baseURL req.url = some target) :
    (∃ resp err, standardClient.Do NewRequestWithContext httpClientDo range c ctx req
          = some (resp, err) ∧ (resp = none ↔ err ≠ none))
      ∧ (∀ err, NewRequestWithContext ctx req.method target req.body = .error err →
          standardClient.Do NewRequestWithContext httpClientDo range c ctx req
            = some (none, some err))
      ∧ (∀ r err, NewRequestWithContext ctx req.method target req.body = .ok r →
          httpClientDo c.timeout (addRequestHeaders r (range req.headers)) = .error err →
          standardClient.Do NewRequestWithContext httpClientDo range c ctx req
            = some (none, some err))
      ∧ (∀ r resp, NewRequestWithContext ctx req.method target req.body = .ok r →
          httpClientDo c.timeout (addRequestHeaders r (range req.headers)) = .ok resp →
          standardClient.Do NewRequestWithContext httpClientDo range c ctx req
            = some (some (Response.ofHTTP resp), none)) := by
  unfold standardClient.Do
  simp only [ht]
  refine ⟨?_, ?_, ?_, ?_⟩
  · cases h1 : NewRequestWithContext ctx req.method target req.body with
    | error err => exact ⟨none, some err, rfl, by simp⟩
    | ok r =>
      cases h2 : httpClientDo c.timeout (addRequestHeaders r (range req.headers)) with
      | error err => exact ⟨none, some err, by simp only [h2], by simp⟩
      | ok resp => exact ⟨some (Response.ofHTTP resp), none, by simp only [h2], by simp⟩
  · intro err h1; simp only [h1]
  · intro r err h1 h2; simp only [h1, h2]
  · intro r resp h1 h2; simp only [h1, h2]

/-- C15: a client with the base url "http://server" that is given a request with the
empty url does not return a pair at all: `getTargetURL` panics on `url[0]` before the
transport is reached, whatever the transport would do. -/
theorem standardClient.Do_panics_on_empty_url {Ctx : Type}
    (NewRequestWithContext : Ctx → GoString → GoString → Option Reader → Except Error HTTPRequest)
    (httpClientDo : Int → HTTPRequest → Except Error HTTPResponse)
    (range : HeaderMap → Entries) (ctx : Ctx) (timeout : Int) :
    standardClient.Do NewRequestWithContext httpClientDo range
      ⟨str "http://server", timeout⟩ ctx (Get (str "")) = none := by
  have h : getTargetURL (str "http://server") (Get (str "")).url = none := by decide
  unfold standardClient.Do
  simp only [h]

/-- C16: for every request, context and non-empty list of clients, `r.Do(ctx, cs...)`
is exactly the outcome of the first client's `Do(ctx, r)`, called with the same `r`;
with no client it is the outcome of `DefaultClient.Do(ctx, r)`. -/
theorem RequestPtr.Do_delegates {Ctx β : Type} (DefaultClient : Client Ctx β)
    (r : RequestPtr) (ctx : Ctx) (c : Client Ctx β) (cs : List (Client Ctx β)) :
    r.Do DefaultClient ctx (c :: cs) = c.Do ctx r
      ∧ r.Do DefaultClient ctx [] = DefaultClient.Do ctx r := by
  constructor <;> simp [RequestPtr.Do]

/-- C17: with the base "http://server" and the empty target the index expression
`url[0]` is out of range: `getTargetURL` panics instead of returning a string. -/
theorem getTargetURL_empty_target_panics :
    str "http://server" ≠ str "" ∧ HasPrefix (str "") (str "http") = false
      ∧ (str "")[0]? = none
      ∧ getTargetURL (str "http://server") (str "") = none := by
  decide

/-- C18, as the code has it: for every request and name, `SetHeader` with no variadic
argument, that is with the nil slice, deletes the header entry: afterwards `name` is
not a key of `Headers()`. An empty slice that is not nil is stored like any other
slice: afterwards `name` is a key, with no values. -/
theorem SetHeader_nil_deletes (r : Request) (name : GoString) :
    (r.SetHeader name (variadic [])).Headers.entry name = none
      ∧ (r.SetHeader name none).Headers.entry name = none
      ∧ (r.SetHeader name (some [])).Headers.entry name = some (some []) :=
  ⟨SetHeader_nil_entry_self r name, SetHeader_nil_entry_self r name,
    SetHeader_some_entry_self r name []⟩

/-- C18, as stated, fails for an explicitly passed empty slice that is not nil:
after `r.SetHeader("foo", []string{}...)` on a request with the header `foo`, "foo" is
still a key of `Headers()`. -/
theorem SetHeader_empty_slice_keeps_key :
    (sampleRequest.SetHeader (str "foo") (some [])).Headers.entry (str "foo") = some (some [])
      ∧ (sampleRequest.SetHeader (str "foo") (some [])).Headers.entry (str "foo") ≠ none := by
  decide

/-! ## addRequestHeaders -/

theorem index_some (h : Entries) (K : GoString) :
    HeaderMap.index (some h) K = (h.lookup K).getD none := rfl

theorem lookup_of_not_mem_keys (k : GoString) :
    ∀ es : Entries, k ∉ es.map Prod.fst → es.lookup k = none
  | [], _ => rfl
  | (k1, v1) :: es, h => by
    rw [List.map_cons, List.mem_cons, not_or] at h
    have hbeq : (k == k1) = false := beq_false_of_ne h.1
    rw [List.lookup_cons, hbeq]
    exact lookup_of_not_mem_keys k es h.2

theorem lookup_of_mem (e : GoString × StringSlice) :
    ∀ es : Entries, e ∈ es → es.lookup e.1 ≠ none
  | [], h => absurd h (List.not_mem_nil _)
  | (k1, v1) :: es, h => by
    by_cases hk : e.1 = k1
    · rw [List.lookup_cons, hk, beq_self_eq_true]; simp
    · have hbeq : (e.1 == k1) = false := beq_false_of_ne hk
      rw [List.lookup_cons, hbeq]
      rcases List.mem_cons.mp h with h1 | h1
      · exact absurd (congrArg Prod.fst h1) hk
      · exact lookup_of_mem e es h1

/-- The values a transport header holds under a canonical key, in order. -/
theorem HeaderAdd_index (h : Entries) (key value K : GoString) :
    (HeaderMap.index (some (HeaderAdd h key value)) K).toList
      = if CanonicalMIMEHeaderKey key = K then (HeaderMap.index (some h) K).toList ++ [value]
        else (HeaderMap.index (some h) K).toList := by
  unfold HeaderAdd
  simp only [index_some]
  by_cases hk : CanonicalMIMEHeaderKey key = K
  · subst hk
    simp only [Entries.lookup_store_self, if_true]
    rfl
  · rw [Entries.lookup_store_other _ _ _ _ (fun h2 => hk h2.symm), if_neg hk]

/-- The inner loop: all values of one entry are appended under its canonical key. -/
theorem addValues_index (name K : GoString) :
    ∀ (vs : List GoString) (r : HTTPRequest),
      (HeaderMap.index (some (vs.foldl
          (fun r value => { r with Header := HeaderAdd r.Header name value }) r).Header)
          K).toList
        = if CanonicalMIMEHeaderKey name = K
          then (HeaderMap.index (some r.Header) K).toList ++ vs
          else (HeaderMap.index (some r.Header) K).toList
  | [], r => by simp
  | v :: vs, r => by
    rw [List.foldl_cons, addValues_index name K vs]
    simp only [HeaderAdd_index]
    split_ifs <;> simp

/-- The outer loop, when `name` is the only key visited with the canonical form `K`:
the values of `name` are appended under `K`, nothing else. -/
theorem addRequestHeaders_index (name : GoString) :
    ∀ (order : Entries) (r : HTTPRequest), (order.map Prod.fst).Nodup →
      (∀ e ∈ order, e.1 ≠ name →
        CanonicalMIMEHeaderKey e.1 ≠ CanonicalMIMEHeaderKey name) →
      (HeaderMap.index (some (addRequestHeaders r order).Header)
          (CanonicalMIMEHeaderKey name)).toList
        = (HeaderMap.index (some r.Header) (CanonicalMIMEHeaderKey name)).toList
          ++ ((order.lookup name).getD none).toList
  | [], r, _, _ => by simp [addRequestHeaders, StringSlice.toList]
  | (k, v) :: rest, r, hnd, hcanon => by
    rw [List.map_cons, List.nodup_cons] at hnd
    have ih := addRequestHeaders_index name rest
      (v.toList.foldl (fun r value => { r with Header := HeaderAdd r.Header k value }) r)
      hnd.2 (fun e he => hcanon e (List.mem_cons_of_mem _ he))
    unfold addRequestHeaders at ih ⊢
    rw [List.foldl_cons, ih, addValues_index]
    by_cases hk : k = name
    · subst hk
      have hnone : rest.lookup k = none := lookup_of_not_mem_keys k rest hnd.1
      simp [hnone, List.lookup_cons, StringSlice.toList]
    · have hc := hcanon (k, v) (List.mem_cons_self _ _) hk
      have hbeq : (name == k) = false := beq_false_of_ne (fun h => hk h.symm)
      simp [hc, List.lookup_cons, hbeq]

/-- C19, as the code has it: for every header map, every order in which the `range`
statement visits it and every name in it whose canonical form
(`textproto.CanonicalMIMEHeaderKey`) no other key of the map shares, the values the
transport request holds for that name after `addRequestHeaders` are the values it held
before followed by the map's values for the name, in the same order and with the same
multiplicity; on a request that held none they are exactly the map's values. -/
theorem addRequestHeaders_appends_values (r : HTTPRequest) (m : HeaderMap) (order : Entries)
    (name : GoString) (values : StringSlice)
    (horder : IsRangeOrder order m) (hname : m.entry name = some values)
    (hothers : ∀ k, k ≠ name → m.entry k ≠ none →
      CanonicalMIMEHeaderKey k ≠ CanonicalMIMEHeaderKey name) :
    (HeaderValues (addRequestHeaders r order).Header name).toList
        = (HeaderValues r.Header name).toList ++ values.toList
      ∧ (HeaderValues r.Header name = none →
          (HeaderValues (addRequestHeaders r order).Header name).toList = values.toList) := by
  have key : (HeaderValues (addRequestHeaders r order).Header name).toList
      = (HeaderValues r.Header name).toList ++ values.toList := by
    unfold HeaderValues
    rw [addRequestHeaders_index name order r horder.1, horder.2 name, hname]
    · rfl
    · intro e he hne
      apply hothers e.1 hne
      rw [← horder.2 e.1]
      exact lookup_of_mem e order he
  refine ⟨key, fun hfresh => ?_⟩
  rw [key, hfresh]
  rfl

theorem addRequestHeaders_appends_values_witness :
    (HeaderValues (addRequestHeaders ⟨str "POST", str "http://server/api", none, []⟩
        [(str "foo", some [str "bar", str "foobar"])]).Header (str "foo")).toList
      = [str "bar", str "foobar"] :=
  (addRequestHeaders_appends_values ⟨str "POST", str "http://server/api", none, []⟩
    (some [(str "foo", some [str "bar", str "foobar"])])
    [(str "foo", some [str "bar", str "foobar"])] (str "foo")
    (some [str "bar", str "foobar"])
    ⟨by decide, fun _ => rfl⟩ (by decide)
    (by
      intro k hk hentry
      exfalso
      apply hentry
      have hbeq : (k == str "foo") = false := beq_false_of_ne hk
      simp [HeaderMap.entry, List.lookup_cons, hbeq])).2 (by decide)

/-- C19, as stated, fails for a map with two keys that differ only in letter case:
with "foo" -> ["a"] and "Foo" -> ["b"], visited in this order, the transport request
holds ["a", "b"] for "foo", not the map's ["a"]. -/
theorem addRequestHeaders_merges_case_variants :
    IsRangeOrder [(str "foo", some [str "a"]), (str "Foo", some [str "b"])]
        (some [(str "foo", some [str "a"]), (str "Foo", some [str "b"])])
      ∧ HeaderMap.entry (some [(str "foo", some [str "a"]), (str "Foo", some [str "b"])])
          (str "foo") = some (some [str "a"])
      ∧ HeaderValues (addRequestHeaders ⟨str "POST", str "http://server/api", none, []⟩
          [(str "foo", some [str "a"]), (str "Foo", some [str "b"])]).Header (str "foo")
        = some [str "a", str "b"]
      ∧ (HeaderValues (addRequestHeaders ⟨str "POST", str "http://server/api", none, []⟩
          [(str "foo", some [str "a"]), (str "Foo", some [str "b"])]).Header
            (str "foo")).toList
        ≠ [str "a"] :=
  ⟨⟨by decide, fun _ => rfl⟩, by decide, by decide, by decide⟩

end Httpy
